import Mathlib

/-!
# Verification of the `tracing-aliyun-sls` delivery pipeline

A shallow embedding of the core of the `tracing-aliyun-sls` repository:

* the wire encoder for log groups (`src/crates/aliyun-sls/src/proto.rs` and
  the older layout `src/proto.rs`),
* the request signer (`src/crates/aliyun-sls/src/client/signer.rs`),
* the delivery result handling (`src/crates/aliyun-sls/src/client/mod.rs`
  and the older `src/client.rs`),
* the batching dispatcher (`src/layer.rs`) and the batching reporter
  (`src/crates/aliyun-sls/src/reporter.rs`).

Rust `&str`/`CompactString` values are modelled by their UTF-8 byte
sequences (`List Nat`, one entry per byte); `Vec<u8>` buffers are
`List Nat`; machine integers are `Nat` with explicit bounds where
overflow would matter.
-/

namespace SlsVerify

/-! ## Wire encoder core (`proto.rs`, identical in both layouts) -/

/-- `encode_varint` from `proto.rs`: base-128 continuation encoding of a
`u64`, least-significant 7-bit group first, high bit set on every byte
except the last. The Rust loop writes bytes into the sink; the model
returns the list of written bytes. -/
def encode_varint (value : Nat) : List Nat :=
  if value < 0x80 then [value]
  else (value &&& 0x7F ||| 0x80) :: encode_varint (value >>> 7)
termination_by value
decreasing_by
  simp only [Nat.shiftRight_eq_div_pow]
  exact Nat.div_lt_self (by omega) (by norm_num)

/-- Bit length of a natural number, computed with explicit fuel so that it
is structurally recursive (the fuel is always instantiated with 64, the
width of `u64`). -/
def bitlen : Nat → Nat → Nat
  | 0, _ => 0
  | fuel + 1, v => if v = 0 then 0 else bitlen fuel (v / 2) + 1

/-- Models `u64::leading_zeros`: for a value below `2^64` the number of
leading zero bits of its 64-bit representation is `64 -` its bit length. -/
def u64_leading_zeros (v : Nat) : Nat := 64 - bitlen 64 v

/-- `encoded_len_varint` from `proto.rs`:
`((((value | 1).leading_zeros() ^ 63) * 9 + 73) / 64`. -/
def encoded_len_varint (value : Nat) : Nat :=
  (((u64_leading_zeros (value ||| 1)) ^^^ 63) * 9 + 73) / 64

/-- `key_len` from `proto.rs`. -/
def key_len (tag : Nat) : Nat := encoded_len_varint (tag <<< 3)

/-- `encode_key` from `proto.rs`: the field key is
`(tag << 3) | wire_type`, emitted as a varint. -/
def encode_key (tag : Nat) (wire_type : Nat) : List Nat :=
  encode_varint ((tag <<< 3) ||| wire_type)

/-- `encode_varint_field` from `proto.rs` (wire type 0). -/
def encode_varint_field (tag : Nat) (value : Nat) : List Nat :=
  encode_key tag 0 ++ encode_varint value

/-- `u32::to_le_bytes`. -/
def u32_le_bytes (v : Nat) : List Nat :=
  [v % 256, v >>> 8 % 256, v >>> 16 % 256, v >>> 24 % 256]

/-- `encode_fixed32` from `proto.rs` (wire type 5). -/
def encode_fixed32 (tag : Nat) (value : Nat) : List Nat :=
  encode_key tag 5 ++ u32_le_bytes value

/-- `encode_str` from `proto.rs` (wire type 2): length varint, then the
raw bytes; `str::len` is the byte length. -/
def encode_str (tag : Nat) (value : List Nat) : List Nat :=
  encode_key tag 2 ++ encode_varint value.length ++ value

/-- `encoded_str_len` from `proto.rs`. -/
def encoded_str_len (tag : Nat) (value : List Nat) : Nat :=
  key_len tag + encoded_len_varint value.length + value.length

/-- `encoded_varint_field_len` from `proto.rs`. -/
def encoded_varint_field_len (tag : Nat) (value : Nat) : Nat :=
  key_len tag + encoded_len_varint value

/-- `encoded_fixed32_len` from `proto.rs`. -/
def encoded_fixed32_len (tag : Nat) : Nat := key_len tag + 4

/-! ## Data model

`KeyValue` models both the `(CompactString, CompactString)` pairs of the
`crates/aliyun-sls` layout and `KeyValue<'a>` of the older `src/proto.rs`
layout: a key/value pair of strings, modelled as byte sequences. -/

structure KeyValue where
  key : List Nat
  value : List Nat
deriving DecidableEq, Repr

/-- A log record: `Log` of `crates/aliyun-sls/src/proto.rs` (timestamp,
optional subsecond nanoseconds, contents pairs in the order the backing
map iterates them) and, with the field names of the older layout mapped
over (`time`, `time_ns`, `contents`), `Log<'a>` of `src/proto.rs`. -/
structure Log where
  timestamp : Nat
  subsec_nanosecond : Option Nat
  contents : List KeyValue
deriving DecidableEq, Repr

/-- `LogGroupMetadata` of `crates/aliyun-sls/src/proto.rs`. -/
structure LogGroupMetadata where
  topic : Option (List Nat)
  source : Option (List Nat)
  log_tags : List KeyValue
deriving DecidableEq, Repr

/-- `LogGroup<'a>` of the older `src/proto.rs`. -/
structure LogGroup where
  logs : List Log
  reserved : Option (List Nat)
  topic : Option (List Nat)
  source : Option (List Nat)
  log_tags : List KeyValue
deriving DecidableEq, Repr

/-! ## Message encoding (identical formulas in both layouts) -/

/-- `Message::encoded_len` for a key/value pair. -/
def keyvalue_encoded_len (p : KeyValue) : Nat :=
  encoded_str_len 1 p.key + encoded_str_len 2 p.value

/-- `Message::encode` for a key/value pair. -/
def keyvalue_encode (p : KeyValue) : List Nat :=
  encode_str 1 p.key ++ encode_str 2 p.value

/-- `encode_message` from `proto.rs`, instantiated at key/value pairs:
key, inner length varint, inner bytes. -/
def encode_message_keyvalue (tag : Nat) (p : KeyValue) : List Nat :=
  encode_key tag 2 ++ encode_varint (keyvalue_encoded_len p) ++ keyvalue_encode p

/-- `encoded_len_repeated` from `proto.rs`, instantiated at key/value
pairs. -/
def encoded_len_repeated_keyvalue (tag : Nat) (l : List KeyValue) : Nat :=
  key_len tag * l.length
    + (l.map (fun m => keyvalue_encoded_len m + encoded_len_varint (keyvalue_encoded_len m))).sum

/-- `Message::encoded_len` for `Log`. -/
def log_encoded_len (l : Log) : Nat :=
  encoded_varint_field_len 1 l.timestamp
    + encoded_len_repeated_keyvalue 2 l.contents
    + (match l.subsec_nanosecond with
       | some _ => encoded_fixed32_len 4
       | none => 0)

/-- `Message::encode` for `Log`. -/
def log_encode (l : Log) : List Nat :=
  encode_varint_field 1 l.timestamp
    ++ (l.contents.map (encode_message_keyvalue 2)).flatten
    ++ (match l.subsec_nanosecond with
        | some v => encode_fixed32 4 v
        | none => [])

/-- `encode_message` from `proto.rs`, instantiated at `Log`. -/
def encode_message_log (tag : Nat) (l : Log) : List Nat :=
  encode_key tag 2 ++ encode_varint (log_encoded_len l) ++ log_encode l

/-- `encoded_len_repeated` from `proto.rs`, instantiated at `Log`. -/
def encoded_len_repeated_log (tag : Nat) (l : List Log) : Nat :=
  key_len tag * l.length
    + (l.map (fun m => log_encoded_len m + encoded_len_varint (log_encoded_len m))).sum

/-- `encode_log_group` from `crates/aliyun-sls/src/proto.rs`: logs
(field 1), then topic (field 3), source (field 4), tags (field 6). -/
def encode_log_group (metadata : LogGroupMetadata) (logs : List Log) : List Nat :=
  (logs.map (encode_message_log 1)).flatten
    ++ (match metadata.topic with
        | some v => encode_str 3 v
        | none => [])
    ++ (match metadata.source with
        | some v => encode_str 4 v
        | none => [])
    ++ (metadata.log_tags.map (encode_message_keyvalue 6)).flatten

/-- `calc_log_group_encoded_len` from `crates/aliyun-sls/src/proto.rs`. -/
def calc_log_group_encoded_len (metadata : LogGroupMetadata) (logs : List Log) : Nat :=
  encoded_len_repeated_log 1 logs
    + (match metadata.topic with
       | some v => encoded_str_len 3 v
       | none => 0)
    + (match metadata.source with
       | some v => encoded_str_len 4 v
       | none => 0)
    + encoded_len_repeated_keyvalue 6 metadata.log_tags

/-- `<LogGroup as Message>::encode` from the older `src/proto.rs`: logs
(field 1), reserved (field 2), topic (field 3), source (field 4), tags
(field 6). -/
def logGroup_encode (g : LogGroup) : List Nat :=
  (g.logs.map (encode_message_log 1)).flatten
    ++ (match g.reserved with
        | some v => encode_str 2 v
        | none => [])
    ++ (match g.topic with
        | some v => encode_str 3 v
        | none => [])
    ++ (match g.source with
        | some v => encode_str 4 v
        | none => [])
    ++ (g.log_tags.map (encode_message_keyvalue 6)).flatten

/-- `<LogGroup as Message>::encoded_len` from the older `src/proto.rs`. -/
def logGroup_encoded_len (g : LogGroup) : Nat :=
  encoded_len_repeated_log 1 g.logs
    + (match g.reserved with
       | some v => encoded_str_len 2 v
       | none => 0)
    + (match g.topic with
       | some v => encoded_str_len 3 v
       | none => 0)
    + (match g.source with
       | some v => encoded_str_len 4 v
       | none => 0)
    + encoded_len_repeated_keyvalue 6 g.log_tags

/-- `LogGroup::estimate_size` from the older `src/proto.rs`: only the
logs (field 1) and the tags (field 6) are counted. -/
def estimate_size (logs : List Log) (tags : List KeyValue) : Nat :=
  encoded_len_repeated_log 1 logs + encoded_len_repeated_keyvalue 6 tags

/-! ## The small ordered map backing `contents` and `log_tags`

The `crates/aliyun-sls` layout stores pairs in
`litemap::LiteMap<CompactString, CompactString, SmallVec<..., N>>`
(`proto.rs` line 33): an association vector kept sorted by key
(`CompactString` orders as its UTF-8 bytes, lexicographically), with
binary-search insertion that overwrites the value when the key is already
present and spills from the inline `SmallVec` buffer to the heap when the
inline capacity is exceeded.  The model keeps the sorted-vector semantics
(insertion position is irrelevant to a sorted vector's contents, so the
binary search is modelled by a linear walk to the same position). -/

/-- Lexicographic strict order on byte strings: the order of Rust's
`Ord for str`/`CompactString`. -/
def bytes_lt : List Nat → List Nat → Bool
  | [], [] => false
  | [], _ :: _ => true
  | _ :: _, [] => false
  | a :: as, b :: bs =>
    if a < b then true
    else if b < a then false
    else bytes_lt as bs

/-- `LiteMap::insert`: place the pair at its sorted position; an equal key
has its value overwritten in place. -/
def litemap_insert (k v : List Nat) : List KeyValue → List KeyValue
  | [] => [⟨k, v⟩]
  | p :: rest =>
    if bytes_lt k p.key then ⟨k, v⟩ :: p :: rest
    else if k = p.key then ⟨k, v⟩ :: rest
    else p :: litemap_insert k v rest

/-- `LiteMap::get` (value lookup by key). -/
def litemap_get (k : List Nat) : List KeyValue → Option (List Nat)
  | [] => none
  | p :: rest => if p.key = k then some p.value else litemap_get k rest

/-- Keys strictly ascending: the `LiteMap` store invariant. -/
def keys_sorted : List KeyValue → Bool
  | [] => true
  | [_] => true
  | p :: q :: rest => bytes_lt p.key q.key && keys_sorted (q :: rest)

/-- `Log::new` from `crates/aliyun-sls/src/proto.rs`. -/
def Log.new (timestamp : Nat) (subsec_nanosecond : Option Nat) : Log :=
  { timestamp, subsec_nanosecond, contents := [] }

/-- `Log::with` from `crates/aliyun-sls/src/proto.rs`:
`self.contents.insert(key.into(), value.into()); self`. -/
def Log.with (l : Log) (k v : List Nat) : Log :=
  { l with contents := litemap_insert k v l.contents }

/-- `LogGroupMetadata::new` from `crates/aliyun-sls/src/proto.rs`. -/
def LogGroupMetadata.new : LogGroupMetadata :=
  { topic := none, source := none, log_tags := [] }

/-- `LogGroupMetadata::with_tag` from `crates/aliyun-sls/src/proto.rs`:
`self.log_tags.insert(key.into(), value.into()); self`. -/
def LogGroupMetadata.with_tag (m : LogGroupMetadata) (k v : List Nat) : LogGroupMetadata :=
  { m with log_tags := litemap_insert k v m.log_tags }

/-! ## The older dispatcher (`src/layer.rs`)

`SlsDispatcher::run` races three branches; the model captures the two
that mutate the buffer.  The `HashMap<Vec<KeyValue>, Vec<Log>>` buffer is
modelled as an association list whose order stands for the map's
(unspecified) iteration order. -/

/-- The per-group size cap of `src/layer.rs`: 10 MiB. -/
def MAX_SINGLE_SIZE : Nat := 10 * 1024 * 1024

/-- `HashMap::get` on the buffer. -/
def buffer_get (buffer : List (List KeyValue × List Log)) (tags : List KeyValue) :
    Option (List Log) :=
  (buffer.find? (fun e => e.1 = tags)).map (·.2)

/-- `HashMap::insert` of a key not present (new entries' position in the
iteration order is unspecified; the model appends). -/
def buffer_insert (buffer : List (List KeyValue × List Log)) (tags : List KeyValue)
    (logs : List Log) : List (List KeyValue × List Log) :=
  buffer ++ [(tags, logs)]

/-- In-place mutation of the entry held for a key. -/
def buffer_update (buffer : List (List KeyValue × List Log)) (tags : List KeyValue)
    (logs : List Log) : List (List KeyValue × List Log) :=
  buffer.map (fun e => if e.1 = tags then (e.1, logs) else e)

/-- `HashMap::remove_entry` (all entries of the key disappear). -/
def buffer_remove (buffer : List (List KeyValue × List Log)) (tags : List KeyValue) :
    List (List KeyValue × List Log) :=
  buffer.filter (fun e => ¬e.1 = tags)

/-- Result of one receiver-branch iteration of `SlsDispatcher::run`:
either the `assert!` fired (the task panics), or the new buffer together
with the group dispatched to `put_log` (if any) and the record dropped
with a diagnostic (if any). -/
inductive StepResult where
  | panicked
  | ok (buffer : List (List KeyValue × List Log)) (dispatched : Option (List KeyValue × List Log))
      (dropped : Option Log)
deriving DecidableEq, Repr

/-- The receiver branch of `SlsDispatcher::run` (`src/layer.rs` lines
142-172) for one incoming `(tags, log)` pair:
`entry(tags).or_default()`, the pre-append `assert!`, the push, the
size re-check, and on overflow the remove / pop / dispatch / re-seed
or drop sequence.  `logs.pop()` on the just-pushed vector is
`dropLast`, and the popped element is the `log` just pushed. -/
def dispatch_step (buffer : List (List KeyValue × List Log)) (tags : List KeyValue)
    (log : Log) : StepResult :=
  let buffer0 := if (buffer_get buffer tags).isSome then buffer else buffer_insert buffer tags []
  let logs := (buffer_get buffer tags).getD []
  let size_before := estimate_size logs tags
  if size_before > MAX_SINGLE_SIZE then .panicked
  else
    let logs1 := logs ++ [log]
    let size_after := estimate_size logs1 tags
    if size_after > MAX_SINGLE_SIZE then
      let remaining := logs1.dropLast
      let last_log := log
      let new_logs := [last_log]
      if estimate_size new_logs tags > MAX_SINGLE_SIZE then
        .ok (buffer_remove buffer0 tags) (some (tags, remaining)) (some last_log)
      else
        .ok (buffer_insert (buffer_remove buffer0 tags) tags new_logs)
          (some (tags, remaining)) none
    else
      .ok (buffer_update buffer0 tags logs1) none none

/-- One comparison step of `max_by_key`: keep the entry with the larger
record count, preferring the later entry on ties (as `max_by_key`
does). -/
def max_entry_step (acc : Option (List KeyValue × List Log))
    (e : List KeyValue × List Log) : Option (List KeyValue × List Log) :=
  match acc with
  | none => some e
  | some m => if e.2.length ≥ m.2.length then some e else some m

/-- `self.buffer.iter().max_by_key(|(_, logs)| logs.len())`: the last
maximal entry in iteration order. -/
def max_entry (buffer : List (List KeyValue × List Log)) :
    Option (List KeyValue × List Log) :=
  buffer.foldl max_entry_step none

/-- The timer branch of `SlsDispatcher::run` (`src/layer.rs` lines
128-141): if the buffer is empty, `continue`; otherwise remove the entry
with the most records and dispatch it (alone) to `put_log`. -/
def timer_step (buffer : List (List KeyValue × List Log)) :
    List (List KeyValue × List Log) × Option (List KeyValue × List Log) :=
  if buffer.isEmpty then (buffer, none)
  else
    match max_entry buffer with
    | none => (buffer, none)
    | some e => (buffer_remove buffer e.1, some (e.1, (buffer_get buffer e.1).getD []))

/-- One event consumed by the dispatcher loop. -/
inductive DispatcherOp where
  | recv (tags : List KeyValue) (log : Log)
  | timer
deriving DecidableEq, Repr

/-- One iteration of the dispatcher loop; `none` models the loop task
having panicked on the `assert!`. -/
def dispatcher_step_fn (st : Option (List (List KeyValue × List Log)))
    (op : DispatcherOp) : Option (List (List KeyValue × List Log)) :=
  match st with
  | none => none
  | some buffer =>
    match op with
    | .timer => some (timer_step buffer).1
    | .recv tags log =>
      match dispatch_step buffer tags log with
      | .panicked => none
      | .ok b _ _ => some b

/-- The dispatcher loop from its initial empty buffer over a sequence of
events. -/
def dispatcher_run (ops : List DispatcherOp) :
    Option (List (List KeyValue × List Log)) :=
  ops.foldl dispatcher_step_fn (some [])

/-! ## The batching reporter (`crates/aliyun-sls/src/reporter.rs`) -/

/-- The state owned by `LogConsumer`: the vector pool, the grouping map
(association list in iteration order) and the three configured
capacities. -/
structure ConsumerState where
  vec_pool : List (List Log)
  log_group : List (LogGroupMetadata × List Log)
  log_vec_capacity : Nat
  log_group_capacity : Nat
  vec_pool_capacity : Nat
deriving DecidableEq, Repr

/-- `HashMap::get` on the grouping map. -/
def group_get (g : List (LogGroupMetadata × List Log)) (meta : LogGroupMetadata) :
    Option (List Log) :=
  (g.find? (fun e => e.1 = meta)).map (·.2)

/-- In-place mutation of the entry held for a metadata key. -/
def group_update (g : List (LogGroupMetadata × List Log)) (meta : LogGroupMetadata)
    (logs : List Log) : List (LogGroupMetadata × List Log) :=
  g.map (fun e => if e.1 = meta then (e.1, logs) else e)

/-- `Reporting::start` (`reporter.rs` lines 162-176): the pool is filled
with `vec_pool_capacity` freshly allocated empty vectors
(`resize_with(vec_pool_capacity, || Vec::with_capacity(log_vec_capacity))`)
and the grouping map starts empty. -/
def init_consumer (log_vec_capacity log_group_capacity vec_pool_capacity : Nat) :
    ConsumerState :=
  { vec_pool := List.replicate vec_pool_capacity ([] : List Log)
    log_group := []
    log_vec_capacity
    log_group_capacity
    vec_pool_capacity }

/-- `LogConsumer::consume` (`reporter.rs` lines 206-219):
`log_group.entry(meta).or_insert_with(|| vec_pool.pop().unwrap_or_else(..)).push(log)`.
`Vec::pop` takes from the back of the pool. -/
def consume_step (s : ConsumerState) (meta : LogGroupMetadata) (log : Log) :
    ConsumerState :=
  match group_get s.log_group meta with
  | some logs => { s with log_group := group_update s.log_group meta (logs ++ [log]) }
  | none =>
    match s.vec_pool.getLast? with
    | some v =>
      { s with
        vec_pool := s.vec_pool.dropLast
        log_group := s.log_group ++ [(meta, v ++ [log])] }
    | none => { s with log_group := s.log_group ++ [(meta, [] ++ [log])] }

/-- `LogConsumer::drain` (`reporter.rs` lines 221-230): every entry of the
grouping map is dispatched via `put_log`, its vector cleared
(`log.clear(); log.shrink_to(log_vec_capacity)`) and pushed onto the
pool; the map is left empty (`drain` plus `shrink_to`) and the pool
truncated to `vec_pool_capacity`.  Returns the new state and the
dispatched groups in iteration order. -/
def drain_step (s : ConsumerState) :
    ConsumerState × List (LogGroupMetadata × List Log) :=
  let dispatched := s.log_group
  let pool1 := s.vec_pool ++ s.log_group.map (fun _ => ([] : List Log))
  ({ s with log_group := [], vec_pool := pool1.take s.vec_pool_capacity }, dispatched)

/-- One event consumed by the reporter's select loop. -/
inductive ConsumerOp where
  | consume (meta : LogGroupMetadata) (log : Log)
  | drain
deriving DecidableEq, Repr

/-- One iteration of the consumer's select loop. -/
def consumer_step_fn (s : ConsumerState) (op : ConsumerOp) : ConsumerState :=
  match op with
  | .consume m l => consume_step s m l
  | .drain => (drain_step s).1

/-- The consumer loop from `Reporting::start`'s initial state over a
sequence of events. -/
def run_consumer (log_vec_capacity log_group_capacity vec_pool_capacity : Nat)
    (ops : List ConsumerOp) : ConsumerState :=
  ops.foldl consumer_step_fn
    (init_consumer log_vec_capacity log_group_capacity vec_pool_capacity)

/-! ## Delivery result handling

`SlsClient::put_log_inner` (`crates/aliyun-sls/src/client/mod.rs` lines
85-127) and the older `SlsClient::put_log` (`src/client.rs` lines
99-182).  The transport, like the hash/HMAC primitives, is external: its
outcome is an input of the model.  Opaque transport errors are labelled
by a `Nat`. -/

/-- `SlsClientError` from `crates/aliyun-sls/src/client/mod.rs`. -/
inductive SlsClientError where
  | http (status : Nat) (message : String)
  | imp (e : Nat)
deriving DecidableEq, Repr

/-- `SlsClientError` from the older `src/client.rs`. -/
inductive OldSlsClientError where
  | reqwest (e : Nat)
  | hmac (e : Nat)
  | io (e : Nat)
deriving DecidableEq, Repr

instance {α β : Type} [DecidableEq α] [DecidableEq β] : DecidableEq (Except α β) :=
  fun x y =>
    match x, y with
    | .error a, .error b =>
      if h : a = b then isTrue (by subst h; rfl)
      else isFalse (fun hc => h (by cases hc; rfl))
    | .ok a, .ok b =>
      if h : a = b then isTrue (by subst h; rfl)
      else isFalse (fun hc => h (by cases hc; rfl))
    | .error _, .ok _ => isFalse (fun hc => Except.noConfusion hc)
    | .ok _, .error _ => isFalse (fun hc => Except.noConfusion hc)

/-- An HTTP response: its status, and the outcome of reading its body
(`res.text().await` may itself fail with a transport error). -/
structure HttpResponse where
  status : Nat
  text : Except Nat String
deriving DecidableEq, Repr

/-- `http::StatusCode::is_success`: `200 ≤ status < 300`. -/
def status_is_success (status : Nat) : Bool :=
  200 ≤ status && status < 300

/-- `SlsClient::put_log_inner`: client init, encode/compress/sign (which
cannot fail), send; then — only when `enable_trace` is set — read the
body, trace it, and turn a non-success status into
`SlsClientError::Http`.  With tracing disabled the status is never
inspected and the result is `Ok`. -/
def put_log_inner (enable_trace : Bool) (client_init : Except Nat Unit)
    (send : Except Nat HttpResponse) : Except SlsClientError Unit :=
  match client_init with
  | .error e => .error (.imp e)
  | .ok _ =>
    match send with
    | .error e => .error (.imp e)
    | .ok res =>
      if enable_trace then
        match res.text with
        | .error e => .error (.imp e)
        | .ok body =>
          if status_is_success res.status then .ok ()
          else .error (.http res.status body)
      else .ok ()

/-- `SlsClient::try_put_log`: logs or prints the error, then returns the
result of `put_log_inner` unchanged. -/
def try_put_log (enable_trace : Bool) (client_init : Except Nat Unit)
    (send : Except Nat HttpResponse) : Except SlsClientError Unit :=
  put_log_inner enable_trace client_init send

/-- The older `SlsClient::put_log` (`src/client.rs`): transport errors
propagate with `?`; a non-success status merely prints a diagnostic to
stderr (reading the body with `?`) and the function returns `Ok(())`. -/
def put_log_old (send : Except Nat HttpResponse) : Except OldSlsClientError Unit :=
  match send with
  | .error e => .error (.reqwest e)
  | .ok res =>
    if status_is_success res.status then .ok ()
    else
      match res.text with
      | .error e => .error (.reqwest e)
      | .ok _ => .ok ()

/-! ## The request signer (`crates/aliyun-sls/src/client/signer.rs`)

MD5, HMAC-SHA1 and base64 come from external crates; they enter the
model as function parameters.  The signer feeds `mac.update` a sequence
of byte chunks; the model concatenates the same chunks into the signed
string. -/

/-- Constants from `crates/aliyun-sls/src/client/headers.rs`. -/
def DEFAULT_CONTENT_TYPE : String := "application/x-protobuf"

def API_VERSION : String := "0.6.0"

def SIGNATURE_METHOD : String := "hmac-sha1"

def LOG_API_VERSION : String := "x-log-apiversion"

def LOG_SIGNATURE_METHOD : String := "x-log-signaturemethod"

def LOG_BODY_RAW_SIZE : String := "x-log-bodyrawsize"

def LOG_COMPRESS_TYPE : String := "x-log-compresstype"

/-- The compile-time compression selection (`lz4`/`deflate` cargo
features; at most one may be active). -/
inductive CompressType where
  | nocompress
  | lz4
  | deflate
deriving DecidableEq, Repr

/-- `Signature` from `signer.rs`. -/
structure Signature where
  date : String
  raw_length : String
  content_md5 : String
  authorization : String
deriving DecidableEq, Repr

/-- One uppercase hexadecimal digit. -/
def hex_digit_upper (n : Nat) : Char :=
  if n < 10 then Char.ofNat (48 + n) else Char.ofNat (55 + n)

/-- `hex::encode_upper`: two uppercase hex digits per byte, high nibble
first. -/
def hex_encode_upper (bytes : List Nat) : String :=
  String.mk ((bytes.map (fun b => [hex_digit_upper (b / 16), hex_digit_upper (b % 16)])).flatten)

/-- `Signer::sign` (`signer.rs` lines 22-87).  `date` is the formatted
current time (an input of the model), `encoded_len` the pre-compression
length, `encoded` the final (possibly compressed) payload bytes.  The
signed string is assembled in exactly the order of the `mac.update`
calls; the compression feature selects the `x-log-compresstype` chunk. -/
def signer_sign (comp : CompressType) (md5 : List Nat → List Nat)
    (hmac_sha1 : String → String → List Nat) (base64 : List Nat → String)
    (access_secret access_key canonicalized_resource date : String)
    (encoded_len : Nat) (encoded : List Nat) : Signature :=
  let raw_length := toString encoded_len
  let content_md5 := hex_encode_upper (md5 encoded)
  let sign_string :=
    "POST\n" ++ content_md5 ++ "\n"
      ++ DEFAULT_CONTENT_TYPE ++ "\n"
      ++ date ++ "\n"
      ++ LOG_API_VERSION ++ ":" ++ API_VERSION ++ "\n"
      ++ LOG_BODY_RAW_SIZE ++ ":" ++ raw_length
      ++ (match comp with
          | .nocompress => "\n"
          | .lz4 => "\nx-log-compresstype:lz4\n"
          | .deflate => "\nx-log-compresstype:deflate\n")
      ++ LOG_SIGNATURE_METHOD ++ ":" ++ SIGNATURE_METHOD ++ "\n"
      ++ canonicalized_resource
  { date
    raw_length
    content_md5
    authorization :=
      "LOG " ++ access_key ++ ":" ++ base64 (hmac_sha1 access_secret sign_string) }

/-- The custom `x-log-*` headers of a request, with their values, in the
order required by the spec: strict ascending alphabetical order of
header name (`apiversion`, `bodyrawsize`, `compresstype` only when
compression is active, `signaturemethod`). -/
def spec_custom_headers (comp : CompressType) (raw_length : String) :
    List (String × String) :=
  match comp with
  | .nocompress =>
    [(LOG_API_VERSION, API_VERSION), (LOG_BODY_RAW_SIZE, raw_length),
      (LOG_SIGNATURE_METHOD, SIGNATURE_METHOD)]
  | .lz4 =>
    [(LOG_API_VERSION, API_VERSION), (LOG_BODY_RAW_SIZE, raw_length),
      (LOG_COMPRESS_TYPE, "lz4"), (LOG_SIGNATURE_METHOD, SIGNATURE_METHOD)]
  | .deflate =>
    [(LOG_API_VERSION, API_VERSION), (LOG_BODY_RAW_SIZE, raw_length),
      (LOG_COMPRESS_TYPE, "deflate"), (LOG_SIGNATURE_METHOD, SIGNATURE_METHOD)]

/-- The canonical string as the spec words it: `POST`, digest,
content-type and date each followed by a newline, then the
`name:value` custom-header block joined by newlines, then a newline and
the canonical resource with no trailing newline. -/
def spec_sign_string (content_md5 date resource : String)
    (headers : List (String × String)) : String :=
  "POST\n" ++ content_md5 ++ "\n" ++ DEFAULT_CONTENT_TYPE ++ "\n" ++ date ++ "\n"
    ++ String.intercalate "\n" (headers.map (fun h => h.1 ++ ":" ++ h.2))
    ++ "\n" ++ resource

/-! ## The spec's wording of base-128 varint encoding -/

/-- Base-128 continuation encoding as the spec words it: low 7 bits per
byte, least-significant byte first, high bit set on every byte except
the last. -/
def base128_spec (v : Nat) : List Nat :=
  if v < 128 then [v] else (v % 128 + 128) :: base128_spec (v / 128)
termination_by v
decreasing_by
  exact Nat.div_lt_self (by omega) (by norm_num)

/-! ## Concrete example values used by witnesses and counterexamples -/

/-- A small key/value pair (`"k" ↦ "v"`). -/
def examplePair : KeyValue := ⟨[107], [118]⟩

/-- A 10 MiB string: 10485760 copies of `'a'`. -/
def exampleBigValue : List Nat := List.replicate (10 * 1024 * 1024) 97

/-- A pair holding the 10 MiB value (`"k" ↦ "aaaa…"`). -/
def exampleBigPair : KeyValue := ⟨[107], exampleBigValue⟩

/-- A tag list whose own encoding exceeds `MAX_SINGLE_SIZE`. -/
def exampleBigTags : List KeyValue := [exampleBigPair]

/-- A log with no contents. -/
def exampleEmptyLog : Log := ⟨0, none, []⟩

/-- A log whose singleton group exceeds `MAX_SINGLE_SIZE` on its own. -/
def exampleBigLog : Log := ⟨0, none, [exampleBigPair]⟩

/-- A small log used in witnesses. -/
def exampleLog : Log := ⟨100, some 5, [⟨[97], [98]⟩]⟩

/-- A small metadata value used in witnesses. -/
def exampleMetadata : LogGroupMetadata := ⟨some [116], none, [examplePair]⟩

/-- A small old-layout group used in witnesses. -/
def exampleGroup : LogGroup := ⟨[exampleLog], some [114], some [116], none, [examplePair]⟩

/-- Nine distinct single-byte keys inserted into one log — one more than
the default inline capacity of 8 key pairs (`inline-keypairs-8`). -/
def exampleNineLog : Log :=
  (((((((((Log.new 0 none).with [0] [0]).with [1] [0]).with [2] [0]).with [3] [0]).with
    [4] [0]).with [5] [0]).with [6] [0]).with [7] [0]).with [8] [0]

/-- Nine distinct single-byte tag keys on one metadata value — one more
than the default inline capacity of 8 tag pairs (`inline-tags-8`). -/
def exampleNineMeta : LogGroupMetadata :=
  ((((((((LogGroupMetadata.new.with_tag [0] [0]).with_tag [1] [0]).with_tag
    [2] [0]).with_tag [3] [0]).with_tag [4] [0]).with_tag [5] [0]).with_tag
    [6] [0]).with_tag [7] [0]).with_tag [8] [0]

/-- Every group held in a buffer fits under the cap. -/
def buffer_inv (buffer : List (List KeyValue × List Log)) : Prop :=
  ∀ e ∈ buffer, estimate_size e.2 e.1 ≤ MAX_SINGLE_SIZE

/-! ## Varint length lemmas -/

theorem or_one_eq (n : Nat) : n ||| 1 = 2 * (n / 2) + 1 := by
  have h1 : (n ||| 1) / 2 = n / 2 := by
    rw [Nat.or_div_two]
    norm_num
  have h2 : (n ||| 1) % 2 = 1 := by
    have h : (n ||| 1).testBit 0 = true := by simp [Nat.testBit_or]
    rw [Nat.testBit_zero] at h
    exact of_decide_eq_true h
  omega

theorem or_one_pos (n : Nat) : 1 ≤ n ||| 1 := by
  rw [or_one_eq]
  omega

theorem log2_or_one {n : Nat} (h : 1 ≤ n) : Nat.log2 (n ||| 1) = Nat.log2 n := by
  rcases Nat.even_or_odd n with he | ho
  · obtain ⟨m, hm⟩ := he
    have hn2 : 2 ≤ n := by omega
    have hor : n ||| 1 = n + 1 := by rw [or_one_eq]; omega
    rw [hor]
    have hle : Nat.log2 n ≤ Nat.log2 (n + 1) := by
      simpa [Nat.log2_eq_log_two] using Nat.log_mono_right (Nat.le_succ n)
    have hlt : n + 1 < 2 ^ (Nat.log2 n + 1) := by
      have hub : n < 2 ^ (Nat.log2 n + 1) := Nat.lt_log2_self
      rcases Nat.lt_or_ge (n + 1) (2 ^ (Nat.log2 n + 1)) with h' | h'
      · exact h'
      · exfalso
        have heq : n + 1 = 2 ^ (Nat.log2 n + 1) := by omega
        have : (n + 1) % 2 = 0 := by
          rw [heq, Nat.pow_succ]
          omega
        omega
    have hge : Nat.log2 (n + 1) ≤ Nat.log2 n := by
      have := (@Nat.log2_lt (n + 1) (Nat.log2 n + 1) (by omega)).mpr hlt
      omega
    omega
  · have hor : n ||| 1 = n := by
      obtain ⟨m, hm⟩ := ho
      rw [or_one_eq]
      omega
    rw [hor]

theorem log2_div_pow (v k : Nat) (h : 2 ^ k ≤ v) :
    Nat.log2 v = Nat.log2 (v / 2 ^ k) + k := by
  induction k generalizing v with
  | zero => simp
  | succ k ih =>
    have h2 : 2 ≤ v := le_trans (Nat.le_self_pow (Nat.succ_ne_zero k) 2) h
    rw [Nat.log2]
    simp only [ge_iff_le, h2, if_pos]
    rw [ih (v / 2) (by
      rw [Nat.le_div_iff_mul_le (by norm_num)]
      calc 2 ^ k * 2 = 2 ^ (k + 1) := by ring
      _ ≤ v := h)]
    rw [Nat.div_div_eq_div_mul]
    ring_nf

theorem bitlen_zero (fuel : Nat) : bitlen fuel 0 = 0 := by
  cases fuel <;> simp [bitlen]

theorem bitlen_eq_log2 {fuel v : Nat} (h : v < 2 ^ fuel) (hv : v ≠ 0) :
    bitlen fuel v = Nat.log2 v + 1 := by
  induction fuel generalizing v with
  | zero => omega
  | succ fuel ih =>
    rw [bitlen, if_neg hv]
    rcases Nat.lt_or_ge v 2 with h2 | h2
    · have hv1 : v = 1 := by omega
      subst hv1
      norm_num [bitlen_zero, Nat.log2]
    · have hd : v / 2 ≠ 0 := by omega
      have hb : v / 2 < 2 ^ fuel := by
        rw [Nat.div_lt_iff_lt_mul (by norm_num)]
        calc v < 2 ^ (fuel + 1) := h
        _ = 2 ^ fuel * 2 := by ring
      rw [ih hb hd]
      have hstep : Nat.log2 v = Nat.log2 (v / 2) + 1 := by
        conv_lhs => rw [Nat.log2]
        simp [h2]
      omega

theorem xor_63 : ∀ x < 64, x ^^^ 63 = 63 - x := by decide

theorem mul9_div : ∀ x < 64, (x * 9 + 73) / 64 = x / 7 + 1 := by decide

/-- For `u64` values the source's bit-trick length formula computes
`log2 (value | 1) / 7 + 1`. -/
theorem encoded_len_varint_eq {v : Nat} (h : v < 2 ^ 64) :
    encoded_len_varint v = Nat.log2 (v ||| 1) / 7 + 1 := by
  have hor : v ||| 1 < 2 ^ 64 := Nat.or_lt_two_pow h (by norm_num)
  have hpos : v ||| 1 ≠ 0 := by have := or_one_pos v; omega
  have hlog : Nat.log2 (v ||| 1) < 64 := (Nat.log2_lt hpos).mpr hor
  rw [encoded_len_varint, u64_leading_zeros, bitlen_eq_log2 hor hpos]
  have hsub : 64 - (Nat.log2 (v ||| 1) + 1) = 63 - Nat.log2 (v ||| 1) := by omega
  rw [hsub, xor_63 _ (by omega)]
  have h63 : 63 - (63 - Nat.log2 (v ||| 1)) = Nat.log2 (v ||| 1) := by omega
  rw [h63, mul9_div _ hlog]

/-- The byte count written by `encode_varint` is `log2 (v | 1) / 7 + 1`,
for every natural number. -/
theorem encode_varint_length (v : Nat) :
    (encode_varint v).length = Nat.log2 (v ||| 1) / 7 + 1 := by
  induction v using Nat.strong_induction_on with
  | _ v ih =>
    rw [encode_varint]
    by_cases h : v < 0x80
    · rw [if_pos h]
      have hlt : v ||| 1 < 128 := by
        have h2 := @Nat.or_lt_two_pow v 1 7 (by simpa using h) (by norm_num)
        simpa using h2
      have hlog : Nat.log2 (v ||| 1) < 7 := by
        rw [Nat.log2_lt (by have := or_one_pos v; omega)]
        exact hlt
      simp [Nat.div_eq_of_lt hlog]
    · rw [if_neg h, List.length_cons]
      have hv : 128 ≤ v := by omega
      have hshift : v >>> 7 = v / 128 := by
        simp [Nat.shiftRight_eq_div_pow]
      have hrec := ih (v >>> 7) (by
        rw [hshift]
        exact Nat.div_lt_self (by omega) (by norm_num))
      rw [hrec]
      have hdpos : 1 ≤ v / 128 := (Nat.one_le_div_iff (by norm_num)).mpr hv
      rw [hshift, log2_or_one hdpos, log2_or_one (by omega : 1 ≤ v)]
      have hdiv : Nat.log2 v = Nat.log2 (v / 128) + 7 := by
        have := log2_div_pow v 7 (by simpa using hv)
        simpa using this
      rw [hdiv, Nat.add_div_right _ (by norm_num)]

/-- On `u64` inputs the writer and the length formula agree byte-for-byte. -/
theorem encode_varint_length_eq {v : Nat} (h : v < 2 ^ 64) :
    (encode_varint v).length = encoded_len_varint v := by
  rw [encode_varint_length, encoded_len_varint_eq h]

/-! ## Structure-level length lemmas -/

theorem encode_key_small (tag wt : Nat) (ht : tag < 16) (hw : wt < 128) :
    encode_key tag wt = [(tag <<< 3) ||| wt] := by
  have hs : tag <<< 3 < 128 := by
    rw [Nat.shiftLeft_eq]
    norm_num
    omega
  have h2 : (tag <<< 3) ||| wt < 128 := by
    have h3 := @Nat.or_lt_two_pow (tag <<< 3) wt 7 (by simpa using hs) (by simpa using hw)
    simpa using h3
  rw [encode_key, encode_varint, if_pos h2]

theorem key_len_small (tag : Nat) (ht : tag < 16) : key_len tag = 1 := by
  have hlt : tag <<< 3 < 128 := by
    rw [Nat.shiftLeft_eq]
    norm_num
    omega
  rw [key_len, encoded_len_varint_eq (by omega)]
  have hor : tag <<< 3 ||| 1 < 128 := by
    have h3 := @Nat.or_lt_two_pow (tag <<< 3) 1 7 (by simpa using hlt) (by norm_num)
    simpa using h3
  have hlog : Nat.log2 (tag <<< 3 ||| 1) < 7 := by
    rw [Nat.log2_lt (by have := or_one_pos (tag <<< 3); omega)]
    exact hor
  simp [Nat.div_eq_of_lt hlog]

theorem encode_str_length {tag : Nat} {s : List Nat} (ht : tag < 16)
    (hs : s.length < 2 ^ 64) :
    (encode_str tag s).length = encoded_str_len tag s := by
  rw [encode_str, encoded_str_len, encode_key_small tag 2 ht (by norm_num),
    key_len_small tag ht]
  simp [encode_varint_length_eq hs]
  omega

theorem keyvalue_encode_length {p : KeyValue} (hk : p.key.length < 2 ^ 64)
    (hv : p.value.length < 2 ^ 64) :
    (keyvalue_encode p).length = keyvalue_encoded_len p := by
  rw [keyvalue_encode, keyvalue_encoded_len]
  rw [List.length_append, encode_str_length (by norm_num) hk,
    encode_str_length (by norm_num) hv]

/-- Boundedness of the string lengths inside a pair, as required so that
the `usize`/`u64` casts in the source cannot overflow. -/
def KeyValueOK (p : KeyValue) : Prop :=
  keyvalue_encoded_len p < 2 ^ 64 ∧ p.key.length < 2 ^ 64 ∧ p.value.length < 2 ^ 64

theorem encode_message_keyvalue_length {tag : Nat} {p : KeyValue} (ht : tag < 16)
    (hp : KeyValueOK p) :
    (encode_message_keyvalue tag p).length
      = key_len tag + encoded_len_varint (keyvalue_encoded_len p) + keyvalue_encoded_len p := by
  obtain ⟨h1, h2, h3⟩ := hp
  rw [encode_message_keyvalue, encode_key_small tag 2 ht (by norm_num),
    key_len_small tag ht]
  simp [encode_varint_length_eq h1, keyvalue_encode_length h2 h3]
  omega

theorem flatten_keyvalue_length {tag : Nat} (l : List KeyValue) (ht : tag < 16)
    (h : ∀ p ∈ l, KeyValueOK p) :
    ((l.map (encode_message_keyvalue tag)).flatten).length
      = encoded_len_repeated_keyvalue tag l := by
  induction l with
  | nil => simp [encoded_len_repeated_keyvalue]
  | cons p t ih =>
    have hp := h p (by simp)
    have ht' : ∀ q ∈ t, KeyValueOK q := fun q hq => h q (by simp [hq])
    rw [List.map_cons, List.flatten_cons, List.length_append,
      encode_message_keyvalue_length ht hp, ih ht']
    rw [encoded_len_repeated_keyvalue, encoded_len_repeated_keyvalue]
    simp
    ring

/-- Boundedness of the numeric fields and string lengths inside a log. -/
def LogOK (l : Log) : Prop :=
  l.timestamp < 2 ^ 64 ∧ log_encoded_len l < 2 ^ 64 ∧ ∀ p ∈ l.contents, KeyValueOK p

theorem log_encode_length {l : Log} (hl : LogOK l) :
    (log_encode l).length = log_encoded_len l := by
  obtain ⟨hts, _, hc⟩ := hl
  rw [log_encode, log_encoded_len]
  rw [List.length_append, List.length_append]
  rw [flatten_keyvalue_length l.contents (by norm_num) hc]
  rw [encode_varint_field, List.length_append, encoded_varint_field_len,
    encode_key_small 1 0 (by norm_num) (by norm_num),
    key_len_small 1 (by norm_num), encode_varint_length_eq hts]
  cases l.subsec_nanosecond with
  | none => simp
  | some v =>
    simp [encode_fixed32, encoded_fixed32_len, u32_le_bytes,
      encode_key_small 4 5 (by norm_num) (by norm_num),
      key_len_small 4 (by norm_num)]

theorem encode_message_log_length {tag : Nat} {l : Log} (ht : tag < 16)
    (hl : LogOK l) :
    (encode_message_log tag l).length
      = key_len tag + encoded_len_varint (log_encoded_len l) + log_encoded_len l := by
  rw [encode_message_log, encode_key_small tag 2 ht (by norm_num),
    key_len_small tag ht]
  simp [encode_varint_length_eq hl.2.1, log_encode_length hl]
  omega

theorem flatten_log_length {tag : Nat} (l : List Log) (ht : tag < 16)
    (h : ∀ x ∈ l, LogOK x) :
    ((l.map (encode_message_log tag)).flatten).length
      = encoded_len_repeated_log tag l := by
  induction l with
  | nil => simp [encoded_len_repeated_log]
  | cons x t ih =>
    have hx := h x (by simp)
    have ht' : ∀ y ∈ t, LogOK y := fun y hy => h y (by simp [hy])
    rw [List.map_cons, List.flatten_cons, List.length_append,
      encode_message_log_length ht hx, ih ht']
    rw [encoded_len_repeated_log, encoded_len_repeated_log]
    simp
    ring

/-! ## Bound propagation: every nested length is at most the total -/

theorem le_sum_map {α : Type} {l : List α} {x : α} (hx : x ∈ l) (f : α → Nat) :
    f x ≤ (l.map f).sum := by
  induction l with
  | nil => cases hx
  | cons a t ih =>
    rcases List.mem_cons.mp hx with h | h
    · subst h
      simp
    · simp only [List.map_cons, List.sum_cons]
      exact le_trans (ih h) (by omega)

theorem keyvalue_len_le_repeated (tag : Nat) {l : List KeyValue} {p : KeyValue}
    (hp : p ∈ l) : keyvalue_encoded_len p ≤ encoded_len_repeated_keyvalue tag l := by
  have := le_sum_map hp (fun m => keyvalue_encoded_len m + encoded_len_varint (keyvalue_encoded_len m))
  rw [encoded_len_repeated_keyvalue]
  omega

theorem log_len_le_repeated (tag : Nat) {l : List Log} {x : Log}
    (hx : x ∈ l) : log_encoded_len x ≤ encoded_len_repeated_log tag l := by
  have := le_sum_map hx (fun m => log_encoded_len m + encoded_len_varint (log_encoded_len m))
  rw [encoded_len_repeated_log]
  omega

theorem key_length_le_keyvalue_len (p : KeyValue) :
    p.key.length ≤ keyvalue_encoded_len p := by
  rw [keyvalue_encoded_len, encoded_str_len, encoded_str_len]
  omega

theorem value_length_le_keyvalue_len (p : KeyValue) :
    p.value.length ≤ keyvalue_encoded_len p := by
  rw [keyvalue_encoded_len, encoded_str_len, encoded_str_len]
  omega

theorem keyvalue_len_le_log_len {l : Log} {p : KeyValue} (hp : p ∈ l.contents) :
    keyvalue_encoded_len p ≤ log_encoded_len l := by
  have := keyvalue_len_le_repeated 2 hp
  rw [log_encoded_len]
  omega

/-- A bound on the whole group bounds every pair inside a bounded log. -/
theorem logOK_of_le {l : Log} (hts : l.timestamp < 2 ^ 64)
    (hlen : log_encoded_len l < 2 ^ 64) : LogOK l := by
  refine ⟨hts, hlen, fun p hp => ?_⟩
  have h1 := keyvalue_len_le_log_len hp
  have h2 := key_length_le_keyvalue_len p
  have h3 := value_length_le_keyvalue_len p
  exact ⟨by omega, by omega, by omega⟩

theorem str_length_le_encoded_str_len (tag : Nat) (s : List Nat) :
    s.length ≤ encoded_str_len tag s := by
  rw [encoded_str_len]
  omega

theorem opt_part_length (tag : Nat) (ht : tag < 16) (o : Option (List Nat))
    (hv : ∀ v, o = some v → v.length < 2 ^ 64) :
    (match o with
      | some v => encode_str tag v
      | none => ([] : List Nat)).length
      = (match o with
        | some v => encoded_str_len tag v
        | none => 0) := by
  cases o with
  | none => simp
  | some v =>
    simp only
    exact encode_str_length ht (hv v rfl)

theorem encode_log_group_length {md : LogGroupMetadata} {logs : List Log}
    (h : calc_log_group_encoded_len md logs < 2 ^ 64)
    (hts : ∀ l ∈ logs, l.timestamp < 2 ^ 64) :
    (encode_log_group md logs).length = calc_log_group_encoded_len md logs := by
  obtain ⟨topic, source, tags⟩ := md
  simp only [calc_log_group_encoded_len] at h
  have hlogOK : ∀ l ∈ logs, LogOK l := by
    intro l hl
    refine logOK_of_le (hts l hl) ?_
    have := log_len_le_repeated 1 hl
    omega
  have htags : ∀ p ∈ tags, KeyValueOK p := by
    intro p hp
    have h1 : keyvalue_encoded_len p ≤ encoded_len_repeated_keyvalue 6 tags :=
      keyvalue_len_le_repeated 6 hp
    have h2 := key_length_le_keyvalue_len p
    have h3 := value_length_le_keyvalue_len p
    exact ⟨by omega, by omega, by omega⟩
  have hvt : ∀ v, topic = some v → v.length < 2 ^ 64 := by
    intro v hveq
    rw [hveq] at h
    simp only at h
    have := str_length_le_encoded_str_len 3 v
    omega
  have hvs : ∀ v, source = some v → v.length < 2 ^ 64 := by
    intro v hveq
    rw [hveq] at h
    simp only at h
    have := str_length_le_encoded_str_len 4 v
    omega
  simp only [encode_log_group, calc_log_group_encoded_len, List.length_append]
  rw [flatten_log_length logs (by norm_num) hlogOK,
    flatten_keyvalue_length tags (by norm_num) htags,
    opt_part_length 3 (by norm_num) topic hvt,
    opt_part_length 4 (by norm_num) source hvs]
  cases topic <;> cases source <;> rfl

theorem logGroup_encode_length {g : LogGroup}
    (h : logGroup_encoded_len g < 2 ^ 64)
    (hts : ∀ l ∈ g.logs, l.timestamp < 2 ^ 64) :
    (logGroup_encode g).length = logGroup_encoded_len g := by
  obtain ⟨logs, reserved, topic, source, tags⟩ := g
  simp only [logGroup_encoded_len] at h
  simp only at hts
  have hlogOK : ∀ l ∈ logs, LogOK l := by
    intro l hl
    refine logOK_of_le (hts l hl) ?_
    have := log_len_le_repeated 1 hl
    omega
  have htags : ∀ p ∈ tags, KeyValueOK p := by
    intro p hp
    have h1 : keyvalue_encoded_len p ≤ encoded_len_repeated_keyvalue 6 tags :=
      keyvalue_len_le_repeated 6 hp
    have h2 := key_length_le_keyvalue_len p
    have h3 := value_length_le_keyvalue_len p
    exact ⟨by omega, by omega, by omega⟩
  have hvr : ∀ v, reserved = some v → v.length < 2 ^ 64 := by
    intro v hveq
    rw [hveq] at h
    simp only at h
    have := str_length_le_encoded_str_len 2 v
    omega
  have hvt : ∀ v, topic = some v → v.length < 2 ^ 64 := by
    intro v hveq
    rw [hveq] at h
    simp only at h
    have := str_length_le_encoded_str_len 3 v
    omega
  have hvs : ∀ v, source = some v → v.length < 2 ^ 64 := by
    intro v hveq
    rw [hveq] at h
    simp only at h
    have := str_length_le_encoded_str_len 4 v
    omega
  simp only [logGroup_encode, logGroup_encoded_len, List.length_append]
  rw [flatten_log_length logs (by norm_num) hlogOK,
    flatten_keyvalue_length tags (by norm_num) htags,
    opt_part_length 2 (by norm_num) reserved hvr,
    opt_part_length 3 (by norm_num) topic hvt,
    opt_part_length 4 (by norm_num) source hvs]
  cases reserved <;> cases topic <;> cases source <;> rfl

/-! ## The varint writer matches the spec's base-128 description -/

theorem encode_varint_eq_base128 (v : Nat) : encode_varint v = base128_spec v := by
  induction v using Nat.strong_induction_on with
  | _ v ih =>
    rw [encode_varint, base128_spec]
    by_cases h : v < 128
    · simp [h]
    · rw [if_neg h, if_neg h]
      have h1 : v &&& 0x7F = v % 128 := by
        have hm := Nat.and_pow_two_sub_one_eq_mod v 7
        norm_num at hm
        exact hm
      have h2 : v % 128 ||| 0x80 = v % 128 + 128 := by
        have hb : v % 128 < 128 := Nat.mod_lt _ (by norm_num)
        have hall : ∀ y < 128, y ||| 128 = y + 128 := by decide
        exact hall _ hb
      have h3 : v >>> 7 = v / 128 := by
        simp [Nat.shiftRight_eq_div_pow]
      rw [h1, h2, h3, ih (v / 128) (Nat.div_lt_self (by omega) (by norm_num))]

/-- C5: the variable-length integer encoder emits the standard base-128
continuation encoding (low 7 bits per byte, least-significant byte
first, high bit set on every byte except the last); 0, 127, 128 and 300
encode to the expected bytes; and for every `u64` value the number of
bytes emitted equals `encoded_len_varint`. -/
theorem c5_varint_base128 :
    (∀ v : Nat, encode_varint v = base128_spec v)
    ∧ encode_varint 0 = [0x00]
    ∧ encode_varint 127 = [0x7F]
    ∧ encode_varint 128 = [0x80, 0x01]
    ∧ encode_varint 300 = [0xAC, 0x02]
    ∧ ∀ v : Nat, v < 2 ^ 64 → (encode_varint v).length = encoded_len_varint v := by
  refine ⟨encode_varint_eq_base128, ?_, ?_, ?_, ?_,
    fun v hv => encode_varint_length_eq hv⟩
  · rw [encode_varint]
    norm_num
  · rw [encode_varint]
    norm_num
  · rw [encode_varint, encode_varint]
    decide
  · rw [encode_varint, encode_varint]
    decide

/-- Witness for C5 at `v = 300`. -/
theorem c5_varint_base128_witness :
    (encode_varint 300).length = encoded_len_varint 300 :=
  c5_varint_base128.2.2.2.2.2 300 (by norm_num)

/-- C1: for every metadata value and list of logs (with `u64`-represent-
able sizes and timestamps, as in the Rust source), the bytes written by
the wire encoder equal the pre-computed encoded length — in the
`crates/aliyun-sls` layout (`encode_log_group` against
`calc_log_group_encoded_len`) and in the older layout
(`LogGroup::encode` against `LogGroup::encoded_len`). -/
theorem c1_encode_len_agree :
    (∀ (metadata : LogGroupMetadata) (logs : List Log),
      calc_log_group_encoded_len metadata logs < 2 ^ 64 →
      (∀ l ∈ logs, l.timestamp < 2 ^ 64) →
      (encode_log_group metadata logs).length = calc_log_group_encoded_len metadata logs)
    ∧ ∀ g : LogGroup,
      logGroup_encoded_len g < 2 ^ 64 →
      (∀ l ∈ g.logs, l.timestamp < 2 ^ 64) →
      (logGroup_encode g).length = logGroup_encoded_len g :=
  ⟨fun _ _ h hts => encode_log_group_length h hts,
   fun _ h hts => logGroup_encode_length h hts⟩

/-- Witness for C1 at a small concrete group in each layout. -/
theorem c1_encode_len_agree_witness :
    (encode_log_group exampleMetadata [exampleLog]).length
      = calc_log_group_encoded_len exampleMetadata [exampleLog]
    ∧ (logGroup_encode exampleGroup).length = logGroup_encoded_len exampleGroup :=
  ⟨c1_encode_len_agree.1 exampleMetadata [exampleLog] (by decide) (by decide),
   c1_encode_len_agree.2 exampleGroup (by decide) (by decide)⟩

/-! ## The request signer -/

/-- C4: `Signer::sign` returns the uppercase-hex MD5 digest of the
payload, the decimal pre-compression length, and the authorization value
`"LOG " ++ access_key ++ ":" ++ base64 (hmac-sha1 of exactly the
canonical string)`, where the canonical string is
`POST`, digest, content-type and date each followed by a newline, then
the `x-log-*` custom headers as newline-separated `name:value` pairs in
strict ascending alphabetical order of name (`apiversion`,
`bodyrawsize` with the pre-compression length, `compresstype` only when
compression is active, `signaturemethod`), then a newline and the
canonical resource with no trailing newline.  Being an equation between
functions of the listed inputs, it also shows the output is a
deterministic function of them. -/
theorem c4_signer_canonical (comp : CompressType) (md5 : List Nat → List Nat)
    (hmac_sha1 : String → String → List Nat) (base64 : List Nat → String)
    (access_secret access_key canonicalized_resource date : String)
    (encoded_len : Nat) (encoded : List Nat) :
    signer_sign comp md5 hmac_sha1 base64 access_secret access_key
        canonicalized_resource date encoded_len encoded
      = { date := date
          raw_length := toString encoded_len
          content_md5 := hex_encode_upper (md5 encoded)
          authorization :=
            "LOG " ++ access_key ++ ":"
              ++ base64 (hmac_sha1 access_secret
                (spec_sign_string (hex_encode_upper (md5 encoded)) date
                  canonicalized_resource
                  (spec_custom_headers comp (toString encoded_len)))) }
    ∧ List.Chain' (· < ·)
        ((spec_custom_headers comp (toString encoded_len)).map Prod.fst) := by
  constructor
  · cases comp <;>
      · simp [signer_sign, spec_sign_string, spec_custom_headers,
          String.intercalate, String.intercalate.go, DEFAULT_CONTENT_TYPE,
          LOG_API_VERSION, API_VERSION, LOG_BODY_RAW_SIZE, LOG_SIGNATURE_METHOD,
          SIGNATURE_METHOD, LOG_COMPRESS_TYPE, String.append_assoc]
        simp [← String.append_assoc]
  · cases comp <;>
      · simp only [spec_custom_headers, List.map_cons, List.map_nil,
          List.chain'_cons, List.chain'_singleton, LOG_API_VERSION,
          LOG_BODY_RAW_SIZE, LOG_SIGNATURE_METHOD, LOG_COMPRESS_TYPE]
        repeat' apply And.intro
        all_goals first
          | trivial
          | (rw [String.lt_iff_toList_lt]; decide)

/-! ## Delivery result handling -/

/-- C3 counterexample: with tracing disabled, `try_put_log` returns `Ok`
on a 500 response (the status is never inspected), and the older
`put_log` also returns `Ok` on a 500 response (it only prints a
diagnostic) — delivery does not surface every non-success status as an
error. -/
theorem c3_counterexample :
    try_put_log false (.ok ()) (.ok ⟨500, .ok "server error"⟩) = .ok ()
    ∧ put_log_old (.ok ⟨500, .ok "server error"⟩) = .ok () := by
  constructor <;> rfl

/-- C3 as amended: a non-success status is surfaced as
`SlsClientError::Http` carrying the status and body only when
`enable_trace` is set; with tracing disabled the status is ignored and
the result is `Ok`; transport errors are always surfaced; the older
`put_log` returns `Ok` on a non-success status whose body is readable
and surfaces only transport errors. -/
theorem c3_amended :
    (∀ (res : HttpResponse) (body : String), res.text = .ok body →
      status_is_success res.status = false →
      try_put_log true (.ok ()) (.ok res) = .error (.http res.status body))
    ∧ (∀ (t : Bool) (e : Nat), try_put_log t (.ok ()) (.error e) = .error (.imp e))
    ∧ (∀ res : HttpResponse, try_put_log false (.ok ()) (.ok res) = .ok ())
    ∧ (∀ (res : HttpResponse) (body : String), res.text = .ok body →
      status_is_success res.status = true →
      try_put_log true (.ok ()) (.ok res) = .ok ())
    ∧ (∀ (res : HttpResponse) (body : String), res.text = .ok body →
      put_log_old (.ok res) = .ok ())
    ∧ (∀ e : Nat, put_log_old (.error e) = .error (.reqwest e)) := by
  refine ⟨?_, ?_, ?_, ?_, ?_, ?_⟩
  · intro res body htext hstatus
    simp [try_put_log, put_log_inner, htext, hstatus]
  · intro t e
    cases t <;> rfl
  · intro res
    rfl
  · intro res body htext hstatus
    simp [try_put_log, put_log_inner, htext, hstatus]
  · intro res body htext
    simp [put_log_old, htext]
  · intro e
    rfl

/-- Witness for C3's amended claim: a traced 500 response with body
`"server error"` comes back as `SlsClientError::Http 500`. -/
theorem c3_amended_witness :
    try_put_log true (.ok ()) (.ok ⟨500, .ok "server error"⟩)
      = .error (.http 500 "server error") :=
  c3_amended.1 ⟨500, .ok "server error"⟩ "server error" rfl (by decide)

/-! ## Buffer lemmas for the older dispatcher -/

theorem buffer_get_cons_pos {e : List KeyValue × List Log}
    {b : List (List KeyValue × List Log)} {tags : List KeyValue} (h : e.1 = tags) :
    buffer_get (e :: b) tags = some e.2 := by
  simp [buffer_get, List.find?_cons_of_pos, h]

theorem buffer_get_cons_neg {e : List KeyValue × List Log}
    {b : List (List KeyValue × List Log)} {tags : List KeyValue} (h : ¬e.1 = tags) :
    buffer_get (e :: b) tags = buffer_get b tags := by
  simp only [buffer_get]
  rw [List.find?_cons_of_neg]
  simpa using h

theorem buffer_get_remove (b : List (List KeyValue × List Log)) (tags : List KeyValue) :
    buffer_get (buffer_remove b tags) tags = none := by
  induction b with
  | nil => rfl
  | cons e t ih =>
    by_cases h : e.1 = tags
    · simpa [buffer_remove, List.filter_cons, h] using ih
    · rw [buffer_remove, List.filter_cons]
      rw [show (decide ¬e.1 = tags) = true by simp [h], if_pos rfl]
      rw [buffer_get_cons_neg h]
      exact ih

theorem buffer_get_insert_none {b : List (List KeyValue × List Log)}
    {tags : List KeyValue} {v : List Log} (h : buffer_get b tags = none) :
    buffer_get (buffer_insert b tags v) tags = some v := by
  induction b with
  | nil => simp [buffer_insert, buffer_get_cons_pos]
  | cons e t ih =>
    by_cases he : e.1 = tags
    · rw [buffer_get_cons_pos he] at h
      cases h
    · rw [buffer_get_cons_neg he] at h
      rw [buffer_insert, List.cons_append, buffer_get_cons_neg he]
      exact ih h

theorem mem_buffer_remove {b : List (List KeyValue × List Log)} {tags : List KeyValue}
    {e : List KeyValue × List Log} (he : e ∈ buffer_remove b tags) :
    e ∈ b ∧ ¬e.1 = tags := by
  have := List.mem_filter.mp he
  refine ⟨this.1, ?_⟩
  simpa using this.2

theorem mem_buffer_insert {b : List (List KeyValue × List Log)} {tags : List KeyValue}
    {v : List Log} {e : List KeyValue × List Log} (he : e ∈ buffer_insert b tags v) :
    e ∈ b ∨ e = (tags, v) := by
  simpa [buffer_insert] using he

theorem mem_buffer_update {b : List (List KeyValue × List Log)} {tags : List KeyValue}
    {logs : List Log} {e : List KeyValue × List Log} (he : e ∈ buffer_update b tags logs) :
    e = (tags, logs) ∨ (e ∈ b ∧ ¬e.1 = tags) := by
  obtain ⟨a, ha, hae⟩ := List.mem_map.mp he
  by_cases h : a.1 = tags
  · rw [if_pos h] at hae
    left
    rw [← hae, h]
  · rw [if_neg h] at hae
    right
    rw [← hae]
    exact ⟨ha, h⟩

/-- `buffer_get` finds an actual entry of the buffer. -/
theorem buffer_get_mem {b : List (List KeyValue × List Log)} {tags : List KeyValue}
    {logs : List Log} (h : buffer_get b tags = some logs) : (tags, logs) ∈ b := by
  induction b with
  | nil => cases h
  | cons e t ih =>
    by_cases he : e.1 = tags
    · rw [buffer_get_cons_pos he] at h
      cases h
      rw [← he]
      exact List.mem_cons_self _ _
    · rw [buffer_get_cons_neg he] at h
      exact List.mem_cons_of_mem _ (ih h)

/-! ## Concrete size evaluations -/

theorem estimate_size_nil_nil : estimate_size [] [] = 0 := by decide

theorem exampleBigValue_length : exampleBigValue.length = 10485760 := by
  rw [exampleBigValue, List.length_replicate]

attribute [irreducible] exampleBigValue

theorem exampleBigPair_key : exampleBigPair.key = [107] := rfl

theorem exampleBigPair_value : exampleBigPair.value = exampleBigValue := rfl

theorem keyvalue_big_len : keyvalue_encoded_len exampleBigPair = 10485768 := by
  rw [keyvalue_encoded_len, exampleBigPair_key, exampleBigPair_value,
    encoded_str_len, encoded_str_len, exampleBigValue_length]
  decide

theorem exampleBigLog_contents : exampleBigLog.contents = [exampleBigPair] := rfl

theorem exampleBigLog_timestamp : exampleBigLog.timestamp = 0 := rfl

theorem estimate_size_big_tags : estimate_size [] exampleBigTags > MAX_SINGLE_SIZE := by
  rw [estimate_size, exampleBigTags, encoded_len_repeated_log,
    encoded_len_repeated_keyvalue, List.map_nil, List.sum_nil, List.map_cons,
    List.map_nil, List.sum_cons, List.sum_nil, List.length_nil, List.length_cons,
    List.length_nil]
  rw [keyvalue_big_len, MAX_SINGLE_SIZE]
  decide

theorem log_big_len : log_encoded_len exampleBigLog = 10485775 := by
  rw [log_encoded_len, exampleBigLog_contents, exampleBigLog_timestamp,
    show exampleBigLog.subsec_nanosecond = none from rfl]
  rw [encoded_len_repeated_keyvalue, List.map_cons, List.map_nil, List.sum_cons,
    List.sum_nil, List.length_cons, List.length_nil]
  rw [keyvalue_big_len]
  decide

theorem estimate_size_big_log : estimate_size [exampleBigLog] [] > MAX_SINGLE_SIZE := by
  rw [estimate_size, encoded_len_repeated_log, encoded_len_repeated_keyvalue,
    List.map_cons, List.map_nil, List.sum_cons, List.sum_nil, List.length_cons,
    List.length_nil, List.map_nil, List.sum_nil, List.length_nil]
  rw [log_big_len, MAX_SINGLE_SIZE]
  decide

/-! ## C2: the size-capped batching step -/

/-- C2: when appending a record pushes the group's estimated size over
`MAX_SINGLE_SIZE` (and the pre-append assertion passed), the step
dispatches exactly the prior contents of that group — without the
just-appended record — and the held-back record either seeds a fresh
batch under the same key (its singleton group within the cap: the new
buffer maps the key to exactly `[log]`) or is dropped (its singleton
group over the cap: it is reported dropped and the key is no longer
held). -/
theorem c2_overflow_flush (buffer : List (List KeyValue × List Log))
    (tags : List KeyValue) (log : Log)
    (hassert : estimate_size ((buffer_get buffer tags).getD []) tags ≤ MAX_SINGLE_SIZE)
    (hover : estimate_size (((buffer_get buffer tags).getD []) ++ [log]) tags
      > MAX_SINGLE_SIZE) :
    ∃ b2,
      dispatch_step buffer tags log
        = .ok b2 (some (tags, (buffer_get buffer tags).getD []))
            (if estimate_size [log] tags > MAX_SINGLE_SIZE then some log else none)
      ∧ buffer_get b2 tags
        = (if estimate_size [log] tags > MAX_SINGLE_SIZE then none else some [log]) := by
  simp only [dispatch_step]
  rw [if_neg (by omega), if_pos hover, List.dropLast_concat]
  by_cases hbig : estimate_size [log] tags > MAX_SINGLE_SIZE
  · rw [if_pos hbig, if_pos hbig, if_pos hbig]
    exact ⟨_, rfl, buffer_get_remove _ tags⟩
  · rw [if_neg hbig, if_neg hbig, if_neg hbig]
    exact ⟨_, rfl, buffer_get_insert_none (buffer_get_remove _ tags)⟩

/-- Witness for C2: from an empty buffer, a record whose singleton group
exceeds the cap is held back and dropped, after the (empty) prior
contents are dispatched. -/
theorem c2_overflow_flush_witness :
    ∃ b2,
      dispatch_step [] [] exampleBigLog
        = .ok b2 (some ([], (buffer_get [] []).getD []))
            (if estimate_size [exampleBigLog] [] > MAX_SINGLE_SIZE then some exampleBigLog
             else none)
      ∧ buffer_get b2 []
        = (if estimate_size [exampleBigLog] [] > MAX_SINGLE_SIZE then none
           else some [exampleBigLog]) :=
  c2_overflow_flush [] [] exampleBigLog (by decide) estimate_size_big_log

/-! ## C9: the pre-append assertion -/

/-- C9 counterexample: from the (trivially reachable) empty buffer, the
very first record submitted under a metadata key whose tags alone encode
past `MAX_SINGLE_SIZE` makes the pre-append `assert!` fail — the
assertion is not unreachable, so the claimed invariant-plus-assertion
statement is false. -/
theorem c9_counterexample :
    dispatch_step [] exampleBigTags exampleEmptyLog = .panicked := by
  simp only [dispatch_step]
  rw [show buffer_get [] exampleBigTags = none from rfl]
  rw [show (none : Option (List Log)).getD [] = [] from rfl]
  rw [if_pos estimate_size_big_tags]

theorem mem_or_default {buffer : List (List KeyValue × List Log)}
    {tags : List KeyValue} {e : List KeyValue × List Log}
    (he : e ∈ (if (buffer_get buffer tags).isSome then buffer
               else buffer_insert buffer tags [])) :
    e ∈ buffer ∨ e = (tags, []) := by
  by_cases h : (buffer_get buffer tags).isSome
  · rw [if_pos h] at he
    exact Or.inl he
  · rw [if_neg h] at he
    exact mem_buffer_insert he

theorem dispatch_step_preserves_inv {buffer : List (List KeyValue × List Log)}
    {tags : List KeyValue} {log : Log} {b2 : List (List KeyValue × List Log)}
    {dp : Option (List KeyValue × List Log)} {dr : Option Log}
    (hinv : buffer_inv buffer) (hstep : dispatch_step buffer tags log = .ok b2 dp dr) :
    buffer_inv b2 := by
  simp only [dispatch_step] at hstep
  by_cases h1 : estimate_size ((buffer_get buffer tags).getD []) tags > MAX_SINGLE_SIZE
  · rw [if_pos h1] at hstep
    cases hstep
  · rw [if_neg h1] at hstep
    by_cases h2 : estimate_size ((buffer_get buffer tags).getD [] ++ [log]) tags
        > MAX_SINGLE_SIZE
    · rw [if_pos h2] at hstep
      by_cases h3 : estimate_size [log] tags > MAX_SINGLE_SIZE
      · rw [if_pos h3] at hstep
        cases hstep
        intro e he
        have hr := mem_buffer_remove he
        rcases mem_or_default hr.1 with hb | hphantom
        · exact hinv e hb
        · exact absurd (by rw [hphantom]) hr.2
      · rw [if_neg h3] at hstep
        cases hstep
        intro e he
        rcases mem_buffer_insert he with hr | hsingle
        · have hr2 := mem_buffer_remove hr
          rcases mem_or_default hr2.1 with hb | hphantom
          · exact hinv e hb
          · exact absurd (by rw [hphantom]) hr2.2
        · rw [hsingle]
          show estimate_size [log] tags ≤ MAX_SINGLE_SIZE
          omega
    · rw [if_neg h2] at hstep
      cases hstep
      intro e he
      rcases mem_buffer_update he with hnew | hold
      · rw [hnew]
        show estimate_size ((buffer_get buffer tags).getD [] ++ [log]) tags
          ≤ MAX_SINGLE_SIZE
        omega
      · rcases mem_or_default hold.1 with hb | hphantom
        · exact hinv e hb
        · exact absurd (by rw [hphantom]) hold.2

theorem timer_step_preserves_inv {buffer : List (List KeyValue × List Log)}
    (hinv : buffer_inv buffer) : buffer_inv (timer_step buffer).1 := by
  rw [timer_step]
  by_cases h : buffer.isEmpty
  · rw [if_pos h]
    exact hinv
  · rw [if_neg h]
    cases hm : max_entry buffer with
    | none => exact hinv
    | some e =>
      intro e2 he2
      exact hinv e2 (mem_buffer_remove he2).1

theorem dispatcher_run_inv (ops : List DispatcherOp) :
    ∀ buffer, dispatcher_run ops = some buffer → buffer_inv buffer := by
  rw [dispatcher_run]
  have haux : ∀ (ops2 : List DispatcherOp) (st : Option (List (List KeyValue × List Log))),
      (∀ b0, st = some b0 → buffer_inv b0) →
      ∀ buffer, ops2.foldl dispatcher_step_fn st = some buffer → buffer_inv buffer := by
    intro ops2
    induction ops2 with
    | nil =>
      intro st h buffer hb
      exact h buffer hb
    | cons op rest ih =>
      intro st h buffer hb
      rw [List.foldl_cons] at hb
      refine ih _ ?_ buffer hb
      intro b0 h0
      cases st with
      | none =>
        rw [show dispatcher_step_fn none op = none from rfl] at h0
        cases h0
      | some b1 =>
        have hinv1 := h b1 rfl
        cases op with
        | timer =>
          rw [show dispatcher_step_fn (some b1) .timer = some (timer_step b1).1
            from rfl] at h0
          cases h0
          exact timer_step_preserves_inv hinv1
        | recv tags log =>
          rw [show dispatcher_step_fn (some b1) (.recv tags log)
              = (match dispatch_step b1 tags log with
                 | .panicked => none
                 | .ok b _ _ => some b) from rfl] at h0
          cases hds : dispatch_step b1 tags log with
          | panicked =>
            rw [hds] at h0
            cases h0
          | ok b dp dr =>
            rw [hds] at h0
            cases h0
            exact dispatch_step_preserves_inv hinv1 hds
  intro buffer hb
  refine haux ops (some []) ?_ buffer hb
  intro b0 h0
  cases h0
  intro e he
  cases he

/-- C9 as amended: in every reachable (non-panicked) state of the
dispatcher loop every held group's estimated size is at most
`MAX_SINGLE_SIZE`, and the pre-append assertion can only fail on the
first record of a key that is not yet held and whose tags alone encode
past the cap: it never fails for a key already held in the buffer, nor
for a key whose tags alone fit. -/
theorem c9_assertion_invariant :
    (∀ (ops : List DispatcherOp) (buffer : List (List KeyValue × List Log)),
      dispatcher_run ops = some buffer →
      ∀ e ∈ buffer, estimate_size e.2 e.1 ≤ MAX_SINGLE_SIZE)
    ∧ ∀ (buffer : List (List KeyValue × List Log)) (tags : List KeyValue) (log : Log),
      (∀ e ∈ buffer, estimate_size e.2 e.1 ≤ MAX_SINGLE_SIZE) →
      (estimate_size [] tags ≤ MAX_SINGLE_SIZE ∨ buffer_get buffer tags ≠ none) →
      dispatch_step buffer tags log ≠ .panicked := by
  constructor
  · exact fun ops buffer hb => dispatcher_run_inv ops buffer hb
  · intro buffer tags log hinv hok
    have hbound : estimate_size ((buffer_get buffer tags).getD []) tags ≤ MAX_SINGLE_SIZE := by
      cases hg : buffer_get buffer tags with
      | none =>
        rcases hok with h | h
        · simpa using h
        · exact absurd hg h
      | some logs =>
        have := hinv _ (buffer_get_mem hg)
        simpa using this
    simp only [dispatch_step]
    rw [if_neg (by omega)]
    by_cases h2 : estimate_size ((buffer_get buffer tags).getD [] ++ [log]) tags
        > MAX_SINGLE_SIZE
    · rw [if_pos h2]
      by_cases h3 : estimate_size [log] tags > MAX_SINGLE_SIZE
      · rw [if_pos h3]
        intro h
        cases h
      · rw [if_neg h3]
        intro h
        cases h
    · rw [if_neg h2]
      intro h
      cases h

/-- Witness for C9's amended claim: the invariant of the state reached by
a small run, and a non-panicking step on an empty buffer with empty
tags. -/
theorem c9_assertion_invariant_witness :
    (∀ e ∈ ([(([] : List KeyValue), [exampleEmptyLog])] : List (List KeyValue × List Log)),
      estimate_size e.2 e.1 ≤ MAX_SINGLE_SIZE)
    ∧ dispatch_step [] [] exampleEmptyLog ≠ .panicked :=
  ⟨c9_assertion_invariant.1 [.recv [] exampleEmptyLog] _ (by decide),
   c9_assertion_invariant.2 [] [] exampleEmptyLog (by decide) (Or.inl (by decide))⟩

/-! ## C6: what a drain-timer firing dispatches -/

/-- C6 counterexample: two records under distinct metadata keys are
submitted (a reachable buffer holding two batches); when the drain timer
fires, the older dispatcher dispatches only the one batch with the most
records — the other batch is still held, so the grouping map is not left
empty and not every held batch was dispatched. -/
theorem c6_counterexample :
    dispatcher_run [.recv [] exampleEmptyLog, .recv [examplePair] exampleEmptyLog]
      = some [([], [exampleEmptyLog]), ([examplePair], [exampleEmptyLog])]
    ∧ (timer_step [([], [exampleEmptyLog]), ([examplePair], [exampleEmptyLog])]).1
      = [([], [exampleEmptyLog])]
    ∧ (timer_step [([], [exampleEmptyLog]), ([examplePair], [exampleEmptyLog])]).2
      = some ([examplePair], [exampleEmptyLog]) := by
  refine ⟨?_, by decide, by decide⟩
  decide

theorem max_entry_step_none (x : List KeyValue × List Log) :
    max_entry_step none x = some x := rfl

theorem max_entry_step_some (m x : List KeyValue × List Log) :
    max_entry_step (some m) x
      = (if x.2.length ≥ m.2.length then some x else some m) := rfl

theorem max_entry_mem {buffer : List (List KeyValue × List Log)}
    {e : List KeyValue × List Log} (h : max_entry buffer = some e) : e ∈ buffer := by
  rw [max_entry] at h
  have haux : ∀ (t : List (List KeyValue × List Log))
      (acc : Option (List KeyValue × List Log)) e,
      t.foldl max_entry_step acc = some e → acc = some e ∨ e ∈ t := by
    intro t
    induction t with
    | nil =>
      intro acc e h
      exact Or.inl h
    | cons x rest ih =>
      intro acc e h
      rw [List.foldl_cons] at h
      rcases ih _ e h with hacc | hmem
      · cases acc with
        | none =>
          rw [max_entry_step_none] at hacc
          cases hacc
          exact Or.inr (List.mem_cons_self _ _)
        | some m =>
          rw [max_entry_step_some] at hacc
          by_cases hl : x.2.length ≥ m.2.length
          · rw [if_pos hl] at hacc
            cases hacc
            exact Or.inr (List.mem_cons_self _ _)
          · rw [if_neg hl] at hacc
            exact Or.inl hacc
      · exact Or.inr (List.mem_cons_of_mem _ hmem)
  rcases haux buffer none e h with hacc | hmem
  · cases hacc
  · exact hmem

theorem max_entry_maximal {buffer : List (List KeyValue × List Log)}
    {e : List KeyValue × List Log} (h : max_entry buffer = some e) :
    ∀ e2 ∈ buffer, e2.2.length ≤ e.2.length := by
  rw [max_entry] at h
  have haux : ∀ (t : List (List KeyValue × List Log))
      (acc : Option (List KeyValue × List Log)) e,
      t.foldl max_entry_step acc = some e →
      (∀ m, acc = some m → m.2.length ≤ e.2.length)
      ∧ ∀ e2 ∈ t, e2.2.length ≤ e.2.length := by
    intro t
    induction t with
    | nil =>
      intro acc e h
      refine ⟨?_, by simp⟩
      intro m hm
      rw [hm] at h
      cases h
      exact le_refl _
    | cons x rest ih =>
      intro acc e h
      rw [List.foldl_cons] at h
      obtain ⟨h1, h2⟩ := ih _ e h
      have hx : x.2.length ≤ e.2.length := by
        cases acc with
        | none =>
          exact h1 x (by rw [max_entry_step_none])
        | some m =>
          by_cases hl : x.2.length ≥ m.2.length
          · exact h1 x (by rw [max_entry_step_some, if_pos hl])
          · have hm := h1 m (by rw [max_entry_step_some, if_neg hl])
            omega
      refine ⟨?_, ?_⟩
      · intro m hm
        rw [hm] at h
        by_cases hl : x.2.length ≥ m.2.length
        · rw [max_entry_step_some, if_pos hl] at h
          have := (ih _ e h).1 x rfl
          omega
        · rw [max_entry_step_some, if_neg hl] at h
          exact (ih _ e h).1 m rfl
      · intro e2 he2
        rcases List.mem_cons.mp he2 with heq | hmem
        · rw [heq]
          exact hx
        · exact h2 e2 hmem
  exact (haux buffer none e h).2

theorem max_entry_ne_none {buffer : List (List KeyValue × List Log)}
    (h : buffer ≠ []) : max_entry buffer ≠ none := by
  rw [max_entry]
  have haux : ∀ (t : List (List KeyValue × List Log))
      (acc : Option (List KeyValue × List Log)), acc ≠ none →
      t.foldl max_entry_step acc ≠ none := by
    intro t
    induction t with
    | nil => exact fun acc h => h
    | cons x rest ih =>
      intro acc hacc
      rw [List.foldl_cons]
      refine ih _ ?_
      cases acc with
      | none =>
        rw [max_entry_step_none]
        simp
      | some m =>
        rw [max_entry_step_some]
        by_cases hl : x.2.length ≥ m.2.length
        · rw [if_pos hl]
          simp
        · rw [if_neg hl]
          simp
  cases buffer with
  | nil => exact absurd rfl h
  | cons x rest =>
    rw [List.foldl_cons, max_entry_step_none]
    exact haux rest (some x) (by simp)

/-- C6 as amended: in the reporter layout, `LogConsumer::drain`
dispatches every held batch (one call per key, in iteration order),
leaves the grouping map empty, and rebuilds the pool from the old pool
plus one cleared vector per drained batch, truncated to the configured
capacity.  In the older dispatcher layout a timer firing dispatches at
most one batch — nothing when the buffer is empty, otherwise exactly
one entry whose record count is greatest among all held entries, and
every other key's batch remains held. -/
theorem c6_drain_dispatch :
    (∀ s : ConsumerState,
      (drain_step s).2 = s.log_group
      ∧ (drain_step s).1.log_group = []
      ∧ (drain_step s).1.vec_pool
        = (s.vec_pool ++ s.log_group.map (fun _ => ([] : List Log))).take
            s.vec_pool_capacity)
    ∧ (∀ buffer : List (List KeyValue × List Log),
      (timer_step buffer).2 = none ↔ buffer = [])
    ∧ ∀ buffer : List (List KeyValue × List Log), buffer ≠ [] →
      ∃ e ∈ buffer,
        (∀ e2 ∈ buffer, e2.2.length ≤ e.2.length)
        ∧ (timer_step buffer).2 = some (e.1, (buffer_get buffer e.1).getD [])
        ∧ (timer_step buffer).1 = buffer_remove buffer e.1
        ∧ ∀ e2 ∈ buffer, ¬e2.1 = e.1 → e2 ∈ (timer_step buffer).1 := by
  refine ⟨fun s => ⟨rfl, rfl, rfl⟩, ?_, ?_⟩
  · intro buffer
    constructor
    · intro h
      by_contra hne
      rw [timer_step] at h
      rw [if_neg (by simpa [List.isEmpty_iff] using hne)] at h
      obtain ⟨e, he⟩ := Option.ne_none_iff_exists'.mp (max_entry_ne_none hne)
      rw [he] at h
      cases h
    · intro h
      rw [h]
      rfl
  · intro buffer hne
    obtain ⟨e, he⟩ := Option.ne_none_iff_exists'.mp (max_entry_ne_none hne)
    have hempty : buffer.isEmpty = false := by simpa [List.isEmpty_iff] using hne
    refine ⟨e, max_entry_mem he, max_entry_maximal he, ?_, ?_, ?_⟩
    · rw [timer_step, if_neg (by simp [hempty]), he]
    · rw [timer_step, if_neg (by simp [hempty]), he]
    · intro e2 he2 hne2
      rw [timer_step, if_neg (by simp [hempty]), he]
      exact List.mem_filter.mpr ⟨he2, by simpa using hne2⟩

/-- Witness for C6's amended claim: applied to a one-field consumer
state and a two-entry buffer. -/
theorem c6_drain_dispatch_witness :
    ((drain_step (init_consumer 1 1 1)).2 = (init_consumer 1 1 1).log_group
      ∧ (drain_step (init_consumer 1 1 1)).1.log_group = []
      ∧ (drain_step (init_consumer 1 1 1)).1.vec_pool
        = ((init_consumer 1 1 1).vec_pool
            ++ (init_consumer 1 1 1).log_group.map (fun _ => ([] : List Log))).take
            (init_consumer 1 1 1).vec_pool_capacity)
    ∧ ∃ e ∈ ([(([] : List KeyValue), [exampleEmptyLog]),
        ([examplePair], [exampleEmptyLog])] : List (List KeyValue × List Log)),
      (∀ e2 ∈ ([(([] : List KeyValue), [exampleEmptyLog]),
          ([examplePair], [exampleEmptyLog])] : List (List KeyValue × List Log)),
        e2.2.length ≤ e.2.length)
      ∧ (timer_step [([], [exampleEmptyLog]), ([examplePair], [exampleEmptyLog])]).2
        = some (e.1, (buffer_get [([], [exampleEmptyLog]),
            ([examplePair], [exampleEmptyLog])] e.1).getD [])
      ∧ (timer_step [([], [exampleEmptyLog]), ([examplePair], [exampleEmptyLog])]).1
        = buffer_remove [([], [exampleEmptyLog]), ([examplePair], [exampleEmptyLog])] e.1
      ∧ ∀ e2 ∈ ([(([] : List KeyValue), [exampleEmptyLog]),
          ([examplePair], [exampleEmptyLog])] : List (List KeyValue × List Log)),
        ¬e2.1 = e.1 →
        e2 ∈ (timer_step [([], [exampleEmptyLog]), ([examplePair], [exampleEmptyLog])]).1 :=
  ⟨c6_drain_dispatch.1 (init_consumer 1 1 1),
   c6_drain_dispatch.2.2 _ (by decide)⟩

/-! ## Order lemmas for the sorted small map -/

theorem bytes_lt_irrefl : ∀ l : List Nat, bytes_lt l l = false := by
  intro l
  induction l with
  | nil => rfl
  | cons a as ih =>
    rw [bytes_lt]
    simp [ih]

theorem bytes_lt_trans :
    ∀ a b c : List Nat, bytes_lt a b = true → bytes_lt b c = true →
      bytes_lt a c = true := by
  intro a
  induction a with
  | nil =>
    intro b c hab hbc
    cases b with
    | nil => simp [bytes_lt] at hab
    | cons y ys =>
      cases c with
      | nil => simp [bytes_lt] at hbc
      | cons z zs => rfl
  | cons x xs ih =>
    intro b c hab hbc
    cases b with
    | nil => simp [bytes_lt] at hab
    | cons y ys =>
      cases c with
      | nil => simp [bytes_lt] at hbc
      | cons z zs =>
        rw [bytes_lt] at hab hbc ⊢
        by_cases hxy : x < y
        · by_cases hyz : y < z
          · rw [if_pos (by omega : x < z)]
          · by_cases hzy : z < y
            · rw [if_neg hyz, if_pos hzy] at hbc
              cases hbc
            · have heq : y = z := by omega
              subst heq
              rw [if_pos hxy]
        · by_cases hyx : y < x
          · rw [if_neg hxy, if_pos hyx] at hab
            cases hab
          · have heq : x = y := by omega
            subst heq
            rw [if_neg (by omega), if_neg (by omega)] at hab
            by_cases hyz : x < z
            · rw [if_pos hyz]
            · by_cases hzy : z < x
              · rw [if_neg hyz, if_pos hzy] at hbc
                cases hbc
              · have heq2 : x = z := by omega
                subst heq2
                rw [if_neg (by omega), if_neg (by omega)] at hbc
                rw [if_neg (by omega), if_neg (by omega)]
                exact ih ys zs hab hbc

theorem bytes_lt_total :
    ∀ a b : List Nat, bytes_lt a b = true ∨ a = b ∨ bytes_lt b a = true := by
  intro a
  induction a with
  | nil =>
    intro b
    cases b with
    | nil => exact Or.inr (Or.inl rfl)
    | cons y ys => exact Or.inl rfl
  | cons x xs ih =>
    intro b
    cases b with
    | nil => exact Or.inr (Or.inr rfl)
    | cons y ys =>
      by_cases hxy : x < y
      · refine Or.inl ?_
        rw [bytes_lt, if_pos hxy]
      · by_cases hyx : y < x
        · refine Or.inr (Or.inr ?_)
          rw [bytes_lt, if_pos hyx]
        · have heq : x = y := by omega
          subst heq
          rcases ih ys with h | h | h
          · refine Or.inl ?_
            rw [bytes_lt, if_neg (by omega), if_neg (by omega)]
            exact h
          · exact Or.inr (Or.inl (by rw [h]))
          · refine Or.inr (Or.inr ?_)
            rw [bytes_lt, if_neg (by omega), if_neg (by omega)]
            exact h

theorem keys_sorted_cons (p : KeyValue) (rest : List KeyValue) :
    keys_sorted (p :: rest) = true
      ↔ keys_sorted rest = true ∧ ∀ q ∈ rest, bytes_lt p.key q.key = true := by
  induction rest generalizing p with
  | nil => simp [keys_sorted]
  | cons q rest2 ih =>
    rw [keys_sorted, Bool.and_eq_true]
    constructor
    · rintro ⟨h1, h2⟩
      refine ⟨h2, ?_⟩
      intro r hr
      rcases List.mem_cons.mp hr with hrq | hr2
      · rw [hrq]
        exact h1
      · exact bytes_lt_trans _ _ _ h1 (((ih q).mp h2).2 r hr2)
    · rintro ⟨hs, hall⟩
      exact ⟨hall q (List.mem_cons_self _ _), hs⟩

theorem mem_litemap_insert :
    ∀ (l : List KeyValue) (k v : List Nat) (q : KeyValue),
      q ∈ litemap_insert k v l → q = ⟨k, v⟩ ∨ q ∈ l := by
  intro l k v
  induction l with
  | nil =>
    intro q hq
    rw [litemap_insert] at hq
    exact Or.inl (by simpa using hq)
  | cons p rest ih =>
    intro q hq
    rw [litemap_insert] at hq
    by_cases h1 : bytes_lt k p.key = true
    · rw [if_pos h1] at hq
      rcases List.mem_cons.mp hq with h | h
      · exact Or.inl h
      · exact Or.inr h
    · rw [if_neg h1] at hq
      by_cases h2 : k = p.key
      · rw [if_pos h2] at hq
        rcases List.mem_cons.mp hq with h | h
        · exact Or.inl h
        · exact Or.inr (List.mem_cons_of_mem _ h)
      · rw [if_neg h2] at hq
        rcases List.mem_cons.mp hq with h | h
        · rw [h]
          exact Or.inr (List.mem_cons_self _ _)
        · rcases ih q h with h3 | h3
          · exact Or.inl h3
          · exact Or.inr (List.mem_cons_of_mem _ h3)

theorem litemap_insert_sorted :
    ∀ (l : List KeyValue) (k v : List Nat),
      keys_sorted l = true → keys_sorted (litemap_insert k v l) = true := by
  intro l k v
  induction l with
  | nil => intro _; rfl
  | cons p rest ih =>
    intro hs
    obtain ⟨hrest, hall⟩ := (keys_sorted_cons p rest).mp hs
    rw [litemap_insert]
    by_cases h1 : bytes_lt k p.key = true
    · rw [if_pos h1]
      refine (keys_sorted_cons _ _).mpr ⟨hs, ?_⟩
      intro q hq
      rcases List.mem_cons.mp hq with h | h
      · rw [h]
        exact h1
      · exact bytes_lt_trans _ _ _ h1 (hall q h)
    · rw [if_neg h1]
      by_cases h2 : k = p.key
      · rw [if_pos h2]
        refine (keys_sorted_cons _ _).mpr ⟨hrest, ?_⟩
        intro q hq
        show bytes_lt k q.key = true
        rw [h2]
        exact hall q hq
      · rw [if_neg h2]
        refine (keys_sorted_cons _ _).mpr ⟨ih hrest, ?_⟩
        intro q hq
        rcases mem_litemap_insert rest k v q hq with h | h
        · rw [h]
          show bytes_lt p.key k = true
          rcases bytes_lt_total k p.key with h3 | h3 | h3
          · exact absurd h3 h1
          · exact absurd h3 h2
          · exact h3
        · exact hall q h

theorem keys_sorted_nodup :
    ∀ l : List KeyValue, keys_sorted l = true → (l.map KeyValue.key).Nodup := by
  intro l
  induction l with
  | nil => intro _; simp
  | cons p rest ih =>
    intro hs
    obtain ⟨hrest, hall⟩ := (keys_sorted_cons p rest).mp hs
    rw [List.map_cons, List.nodup_cons]
    refine ⟨?_, ih hrest⟩
    intro hmem
    obtain ⟨q, hq, hkey⟩ := List.mem_map.mp hmem
    have hlt := hall q hq
    rw [hkey, bytes_lt_irrefl] at hlt
    cases hlt

theorem litemap_insert_keys_of_mem :
    ∀ (l : List KeyValue) (k v : List Nat),
      keys_sorted l = true → k ∈ l.map KeyValue.key →
      (litemap_insert k v l).map KeyValue.key = l.map KeyValue.key := by
  intro l k v
  induction l with
  | nil =>
    intro _ h
    simp at h
  | cons p rest ih =>
    intro hs hmem
    obtain ⟨hrest, hall⟩ := (keys_sorted_cons p rest).mp hs
    rw [List.map_cons] at hmem
    rw [litemap_insert]
    by_cases h1 : bytes_lt k p.key = true
    · exfalso
      rcases List.mem_cons.mp hmem with heq | hmem2
      · rw [heq, bytes_lt_irrefl] at h1
        cases h1
      · obtain ⟨q, hq, hkey⟩ := List.mem_map.mp hmem2
        have h3 := hall q hq
        rw [hkey] at h3
        have h4 := bytes_lt_trans _ _ _ h1 h3
        rw [bytes_lt_irrefl] at h4
        cases h4
    · rw [if_neg h1]
      by_cases h2 : k = p.key
      · rw [if_pos h2, List.map_cons, List.map_cons]
        congr 1
      · rw [if_neg h2, List.map_cons, List.map_cons]
        congr 1
        refine ih hrest ?_
        rcases List.mem_cons.mp hmem with heq | h
        · exact absurd heq h2
        · exact h

theorem litemap_get_insert_self :
    ∀ (l : List KeyValue) (k v : List Nat),
      litemap_get k (litemap_insert k v l) = some v := by
  intro l k v
  induction l with
  | nil => simp [litemap_insert, litemap_get]
  | cons p rest ih =>
    rw [litemap_insert]
    by_cases h1 : bytes_lt k p.key = true
    · rw [if_pos h1]
      simp [litemap_get]
    · rw [if_neg h1]
      by_cases h2 : k = p.key
      · rw [if_pos h2]
        simp [litemap_get]
      · rw [if_neg h2, litemap_get, if_neg (fun hc => h2 hc.symm)]
        exact ih

theorem litemap_get_insert_other :
    ∀ (l : List KeyValue) (k v k2 : List Nat), k2 ≠ k →
      litemap_get k2 (litemap_insert k v l) = litemap_get k2 l := by
  intro l k v k2 hne
  induction l with
  | nil =>
    rw [litemap_insert, litemap_get, litemap_get]
    rw [if_neg (show ¬(KeyValue.mk k v).key = k2 from fun h => hne h.symm)]
    rfl
  | cons p rest ih =>
    rw [litemap_insert]
    by_cases h1 : bytes_lt k p.key = true
    · rw [if_pos h1, litemap_get, if_neg (fun h => hne h.symm)]
    · rw [if_neg h1]
      by_cases h2 : k = p.key
      · rw [if_pos h2]
        have hp : ¬p.key = k2 := fun h => hne ((h2.trans h).symm)
        rw [litemap_get, if_neg (fun h => hne h.symm), litemap_get, if_neg hp]
      · rw [if_neg h2]
        by_cases hp : p.key = k2
        · rw [litemap_get, if_pos hp, litemap_get, if_pos hp]
        · rw [litemap_get, if_neg hp, litemap_get, if_neg hp]
          exact ih

/-! ## C7: the ordering of the small map -/

/-- C7 counterexample: inserting `"b" ↦ "1"` and then `"a" ↦ "2"` into a
log's contents yields the pairs in ascending key order
(`"a"` first), not in insertion order of first insertion — the backing
`LiteMap` is a sorted vector, so iteration order is key order, not
insertion order. -/
theorem c7_counterexample :
    (((Log.new 0 none).with [98] [49]).with [97] [50]).contents
        = [⟨[97], [50]⟩, ⟨[98], [49]⟩]
    ∧ (((Log.new 0 none).with [98] [49]).with [97] [50]).contents
        ≠ [⟨[98], [49]⟩, ⟨[97], [50]⟩] := by
  constructor
  · decide
  · decide

/-- C7 as amended: the map holds no duplicate keys (its keys are
strictly ascending, hence nodup — and iteration yields pairs in
ascending key order, not first-insertion order), insertion preserves
sortedness, inserting an already-present key leaves the key sequence —
and hence that key's position — unchanged, and the inserted value is
the one subsequently found under the key. -/
theorem c7_map_semantics :
    (∀ (m : List KeyValue) (k v : List Nat), keys_sorted m = true →
      keys_sorted (litemap_insert k v m) = true)
    ∧ (∀ m : List KeyValue, keys_sorted m = true → (m.map KeyValue.key).Nodup)
    ∧ (∀ (m : List KeyValue) (k v : List Nat), keys_sorted m = true →
      k ∈ m.map KeyValue.key →
      (litemap_insert k v m).map KeyValue.key = m.map KeyValue.key)
    ∧ ∀ (m : List KeyValue) (k v : List Nat),
      litemap_get k (litemap_insert k v m) = some v :=
  ⟨fun m k v h => litemap_insert_sorted m k v h,
   fun m h => keys_sorted_nodup m h,
   fun m k v hs hm => litemap_insert_keys_of_mem m k v hs hm,
   fun m k v => litemap_get_insert_self m k v⟩

/-- Witness for C7's amended claim at a two-pair sorted map, overwriting
the key `"b"`. -/
theorem c7_map_semantics_witness :
    keys_sorted (litemap_insert [97] [51] [⟨[97], [50]⟩, ⟨[98], [49]⟩]) = true
    ∧ (([⟨[97], [50]⟩, ⟨[98], [49]⟩] : List KeyValue).map KeyValue.key).Nodup
    ∧ (litemap_insert [98] [51] [⟨[97], [50]⟩, ⟨[98], [49]⟩]).map KeyValue.key
      = ([⟨[97], [50]⟩, ⟨[98], [49]⟩] : List KeyValue).map KeyValue.key
    ∧ litemap_get [98] (litemap_insert [98] [51] [⟨[97], [50]⟩, ⟨[98], [49]⟩])
      = some [51] :=
  ⟨c7_map_semantics.1 _ [97] [51] (by decide),
   c7_map_semantics.2.1 _ (by decide),
   c7_map_semantics.2.2.1 _ [98] [51] (by decide) (by decide),
   c7_map_semantics.2.2.2 _ [98] [51]⟩

/-! ## C8: inserting beyond the inline capacity -/

/-- C8 counterexample: nine pairs — one beyond the default inline
capacity of eight — are inserted into a log's contents and a metadata
value's tags; every insertion succeeds (the store spills to the heap),
the map holds all nine pairs and the ninth key is present, and no
capacity error or rejected pair exists anywhere in the API. -/
theorem c8_counterexample :
    exampleNineLog.contents.length = 9
    ∧ litemap_get [8] exampleNineLog.contents = some [0]
    ∧ exampleNineMeta.log_tags.length = 9
    ∧ litemap_get [8] exampleNineMeta.log_tags = some [0] := by
  refine ⟨?_, ?_, ?_, ?_⟩ <;> decide

/-- C8 as amended: `Log::with` and `LogGroupMetadata::with_tag` always
succeed — whatever the current size of the store, the inserted pair is
present afterwards and all other keys are unaffected; nothing is
rejected and no capacity error exists (beyond the inline capacity the
`SmallVec` store spills to the heap). -/
theorem c8_insert_never_fails :
    (∀ (l : Log) (k v : List Nat), litemap_get k (l.with k v).contents = some v)
    ∧ (∀ (l : Log) (k v k2 : List Nat), k2 ≠ k →
      litemap_get k2 (l.with k v).contents = litemap_get k2 l.contents)
    ∧ (∀ (m : LogGroupMetadata) (k v : List Nat),
      litemap_get k (m.with_tag k v).log_tags = some v)
    ∧ ∀ (m : LogGroupMetadata) (k v k2 : List Nat), k2 ≠ k →
      litemap_get k2 (m.with_tag k v).log_tags = litemap_get k2 m.log_tags :=
  ⟨fun l k v => litemap_get_insert_self l.contents k v,
   fun l k v k2 h => litemap_get_insert_other l.contents k v k2 h,
   fun m k v => litemap_get_insert_self m.log_tags k v,
   fun m k v k2 h => litemap_get_insert_other m.log_tags k v k2 h⟩

/-- Witness for C8's amended claim on a log already holding nine pairs. -/
theorem c8_insert_never_fails_witness :
    litemap_get [9] (exampleNineLog.with [9] [1]).contents = some [1]
    ∧ litemap_get [0] (exampleNineLog.with [9] [1]).contents
      = litemap_get [0] exampleNineLog.contents :=
  ⟨c8_insert_never_fails.1 exampleNineLog [9] [1],
   c8_insert_never_fails.2.1 exampleNineLog [9] [1] [0] (by decide)⟩

/-! ## C10: pool vectors are always empty -/

theorem group_get_cons_pos {e : LogGroupMetadata × List Log}
    {g : List (LogGroupMetadata × List Log)} {meta : LogGroupMetadata}
    (h : e.1 = meta) : group_get (e :: g) meta = some e.2 := by
  simp [group_get, List.find?_cons_of_pos, h]

theorem group_get_cons_neg {e : LogGroupMetadata × List Log}
    {g : List (LogGroupMetadata × List Log)} {meta : LogGroupMetadata}
    (h : ¬e.1 = meta) : group_get (e :: g) meta = group_get g meta := by
  simp only [group_get]
  rw [List.find?_cons_of_neg]
  simpa using h

theorem group_get_append_none {g : List (LogGroupMetadata × List Log)}
    {meta : LogGroupMetadata} {x : List Log} (h : group_get g meta = none) :
    group_get (g ++ [(meta, x)]) meta = some x := by
  induction g with
  | nil => simp [group_get_cons_pos]
  | cons e t ih =>
    by_cases he : e.1 = meta
    · rw [group_get_cons_pos he] at h
      cases h
    · rw [group_get_cons_neg he] at h
      rw [List.cons_append, group_get_cons_neg he]
      exact ih h

theorem consume_step_pool {s : ConsumerState} {meta : LogGroupMetadata} {log : Log}
    (h : ∀ v ∈ s.vec_pool, v = []) :
    ∀ v ∈ (consume_step s meta log).vec_pool, v = [] := by
  cases hg : group_get s.log_group meta with
  | some logs =>
    simp only [consume_step, hg]
    exact h
  | none =>
    simp only [consume_step, hg]
    cases hp : s.vec_pool.getLast? with
    | none =>
      simp only
      exact h
    | some v0 =>
      simp only
      intro v hv
      exact h v (List.mem_of_mem_dropLast hv)

theorem drain_step_pool {s : ConsumerState}
    (h : ∀ v ∈ s.vec_pool, v = []) :
    ∀ v ∈ (drain_step s).1.vec_pool, v = [] := by
  simp only [drain_step]
  intro v hv
  have hv2 := List.mem_of_mem_take hv
  rcases List.mem_append.mp hv2 with hp | hm
  · exact h v hp
  · obtain ⟨x, _, hx⟩ := List.mem_map.mp hm
    exact hx.symm

theorem run_consumer_pool (a b c : Nat) (ops : List ConsumerOp) :
    ∀ v ∈ (run_consumer a b c ops).vec_pool, v = [] := by
  rw [run_consumer]
  have haux : ∀ (ops2 : List ConsumerOp) (s : ConsumerState),
      (∀ v ∈ s.vec_pool, v = []) →
      ∀ v ∈ (ops2.foldl consumer_step_fn s).vec_pool, v = [] := by
    intro ops2
    induction ops2 with
    | nil => exact fun s h => h
    | cons op rest ih =>
      intro s h
      rw [List.foldl_cons]
      refine ih _ ?_
      cases op with
      | consume m l =>
        rw [show consumer_step_fn s (.consume m l) = consume_step s m l from rfl]
        exact consume_step_pool h
      | drain =>
        rw [show consumer_step_fn s .drain = (drain_step s).1 from rfl]
        exact drain_step_pool h
  refine haux ops _ ?_
  intro v hv
  exact List.eq_of_mem_replicate hv

/-- C10: in every reachable consumer state, every vector in the pool is
empty (the pool starts as freshly allocated empty vectors and drains
push only cleared vectors back), so a batch created for a newly seen
metadata key holds exactly the one record just consumed — never
records left over from a previous batch. -/
theorem c10_pool_vectors_empty :
    (∀ (a b c : Nat) (ops : List ConsumerOp),
      ∀ v ∈ (run_consumer a b c ops).vec_pool, v = [])
    ∧ ∀ (a b c : Nat) (ops : List ConsumerOp) (meta : LogGroupMetadata) (log : Log),
      group_get (run_consumer a b c ops).log_group meta = none →
      group_get (consume_step (run_consumer a b c ops) meta log).log_group meta
        = some [log] := by
  constructor
  · exact run_consumer_pool
  · intro a b c ops meta log hnone
    have hpool := run_consumer_pool a b c ops
    simp only [consume_step, hnone]
    cases hp : (run_consumer a b c ops).vec_pool.getLast? with
    | none =>
      simp only
      exact group_get_append_none hnone
    | some v0 =>
      have hv0 : v0 = [] := hpool v0 (List.mem_of_mem_getLast? hp)
      subst hv0
      simp only
      exact group_get_append_none hnone

/-- Witness for C10: a fresh key consumed right after a drain on a
small run gets the batch `[log]`. -/
theorem c10_pool_vectors_empty_witness :
    (∀ v ∈ (run_consumer 4 4 4 [.consume LogGroupMetadata.new exampleEmptyLog,
      .drain]).vec_pool, v = [])
    ∧ group_get (consume_step (run_consumer 4 4 4 [.consume LogGroupMetadata.new
        exampleEmptyLog, .drain]) exampleMetadata exampleLog).log_group
        exampleMetadata = some [exampleLog] :=
  ⟨c10_pool_vectors_empty.1 4 4 4 _,
   c10_pool_vectors_empty.2 4 4 4 _ exampleMetadata exampleLog (by decide)⟩

end SlsVerify
